import Mathlib

/-!
Verification of the mini-vue reactive UI runtime against its specification.

Each section embeds one part of the source (reactivity engine, scheduler,
watchers, derived values, virtual-node model, keyed-children diff, component
props) as executable Lean definitions, and proves or refutes the spec's
claims about it.
-/

set_option maxHeartbeats 1000000

namespace MiniVue

/-! ## JavaScript value model

A small model of the JS values that flow through the reactivity layer and
the vnode key field.  `nan` is the IEEE NaN; `obj id` stands for an object
reference with identity `id`.  Strict equality `===` is structural on this
fragment except that NaN is unequal to everything, including itself.
-/

inductive JSVal where
  | num (n : Int)
  | nan
  | str (s : String)
  | boolean (b : Bool)
  | nullV
  | undefV
  | obj (id : Nat)
deriving DecidableEq, Repr

/-- JS strict equality `===` on the modelled fragment: NaN compares unequal
to everything (itself included); all other values compare structurally. -/
def strictEq : JSVal → JSVal → Bool
  | .nan, _ => false
  | _, .nan => false
  | a, b => a == b

/-- `hasChanged(oldVal, newVal)` from `src/utils`:
`oldVal !== newVal && oldVal === oldVal && newVal == newVal`.
The source's final conjunct uses loose equality `==`; on a self-comparison
`newVal == newVal` agrees with `newVal === newVal` (both are false exactly
for NaN), so the embedding uses `strictEq` throughout. -/
def hasChanged (oldVal newVal : JSVal) : Bool :=
  !(strictEq oldVal newVal) && strictEq oldVal oldVal && strictEq newVal newVal

/-- JS truthiness of a value: `0`, `NaN`, `""`, `false`, `null` and
`undefined` are falsy; every other modelled value (including any object)
is truthy. -/
def truthy : JSVal → Bool
  | .num n => n != 0
  | .nan => false
  | .str s => s != ""
  | .boolean b => b
  | .nullV => false
  | .undefV => false
  | .obj _ => true

/-! ## Reactive proxy layer (`reactive`, set trap) and boxed reference (`RefImpl`)

The set trap of the proxy created by `reactive` (src/unnamed/part_004):

    set(target, key, newVal) {
      const oldLength = target.length
      const oldVal = Reflect.get(target, key)
      const res = Reflect.set(target, key, newVal)
      if (hasChanged(oldVal, newVal)) {
        trigger(target, key)
        if (isArray(target) && oldLength !== target.length) {
          trigger(target, 'length')
        }
      }
      return res
    }

A reactive target is modelled as a record of own string-keyed properties
plus, for arrays, an explicit `length`.  `jsGet`/`jsSet` model
`Reflect.get`/`Reflect.set` including the array side effect where writing
a numeric index at or past `length` extends `length`, and writing the
`length` property itself changes it. -/

structure RTarget where
  isArr : Bool
  fields : List (String × JSVal)
  len : Int
deriving DecidableEq, Repr

/-- First-match association-list lookup (JS object property read). -/
def alookup (key : String) : List (String × JSVal) → Option JSVal
  | [] => none
  | (k, v) :: rest => if k = key then some v else alookup key rest

/-- Overwrite-or-append association-list update (JS object property write). -/
def aset (key : String) (v : JSVal) : List (String × JSVal) → List (String × JSVal)
  | [] => [(key, v)]
  | (k, w) :: rest => if k = key then (k, v) :: rest else (k, w) :: aset key v rest

/-- `Reflect.get(target, key)`: the `length` property of an array reads the
current length; a missing property reads as `undefined`. -/
def jsGet (t : RTarget) (key : String) : JSVal :=
  if t.isArr && key = "length" then .num t.len
  else (alookup key t.fields).getD .undefV

/-- `Reflect.set(target, key, v)`: writing `length` on an array sets the
length; writing a numeric index `i ≥ length` on an array extends the length
to `i + 1`; every other write stores the property. -/
def jsSet (t : RTarget) (key : String) (v : JSVal) : RTarget :=
  if t.isArr && key = "length" then
    { t with len := match v with | .num n => n | _ => t.len }
  else
    let t' := { t with fields := aset key v t.fields }
    match key.toNat? with
    | some i => if t.isArr && t.len ≤ (i : Int) then { t' with len := (i : Int) + 1 } else t'
    | none => t'

/-- The set trap: performs the write, then returns the list of `trigger`
calls it makes, in order (`[key]`, plus `"length"` when the array length
changed as a side effect) — all of it guarded by `hasChanged`. -/
def reactiveSet (t : RTarget) (key : String) (v : JSVal) : RTarget × List String :=
  let oldLength := t.len
  let oldVal := jsGet t key
  let t' := jsSet t key v
  if hasChanged oldVal v then
    (t', [key] ++ (if t.isArr && oldLength != t'.len then ["length"] else []))
  else
    (t', [])

/-- `conver` from src/src/reactivity/ref.ts wraps composite values through
`reactive`.  The proxy is a transparent identity-stable view of its source,
so at this model's level of abstraction wrapping does not change the value. -/
def conver (v : JSVal) : JSVal := v

/-- `RefImpl`'s `value` setter (src/src/reactivity/ref.ts lines 75–83):
only when `hasChanged` does it store the (wrapped) new value and fire
`trigger(this, 'value')`.  Returns the new stored value and the list of
trigger calls made. -/
def refSet (cur : JSVal) (newVal : JSVal) : JSVal × List String :=
  if hasChanged cur newVal then (conver newVal, ["value"]) else (cur, [])

/-- C7: Setting a property of a reactive proxy, or a boxed reference's
`.value`, to a value for which the changed predicate is false never calls
`trigger`.  The code is in fact stricter than the claim's length exception
allows for: the array-length trigger is nested inside the `hasChanged`
guard, so an unchanged-value write emits no trigger at all. -/
theorem reactive_same_value_write_never_triggers
    (t : RTarget) (key : String) (v : JSVal) (cur newVal : JSVal)
    (h : hasChanged (jsGet t key) v = false)
    (h' : hasChanged cur newVal = false) :
    (reactiveSet t key v).2 = [] ∧ (refSet cur newVal).2 = [] := by
  constructor
  · simp [reactiveSet, h]
  · simp [refSet, h']

/-- Witness for C7 at a concrete input that even mutates the array length as
a side effect: writing `undefined` at index 5 of a length-1 array (old value
`undefined`, unchanged) extends the length yet fires no trigger. -/
theorem reactive_same_value_write_never_triggers_witness :
    hasChanged (jsGet ⟨true, [("0", .num 1)], 1⟩ "5") .undefV = false ∧
    hasChanged (.num 3) (.num 3) = false ∧
    (reactiveSet ⟨true, [("0", .num 1)], 1⟩ "5" .undefV).2 = [] ∧
    (refSet (.num 3) (.num 3)).2 = [] := by
  refine ⟨by decide, by decide, ?_⟩
  exact reactive_same_value_write_never_triggers ⟨true, [("0", .num 1)], 1⟩ "5" .undefV
    (.num 3) (.num 3) (by decide) (by decide)

/-! ## Virtual node key extraction and keyed/unkeyed diff selection

From `h` (src/unnamed/part_001 lines 172–182):

    key: props && (props.key != null ? props.key : null)

and from `patchChildren` (lines 583–606), when both previous and next
children are arrays:

    if (oldChildren[0] && oldChildren[0].key && newChildren[0] && newChildren[0].key)
      patchKeyedChildren(...)
    else
      patchUnkeyedChildren(...)

The selection therefore tests JS *truthiness* of the first children's keys
(and existence of the first children), not key non-nullness. -/

/-- A child vnode, reduced to the field the diff selection inspects. -/
structure VChild where
  key : JSVal
deriving DecidableEq, Repr

/-- Key extraction in `h`: `props && (props.key != null ? props.key : null)`.
With `props` null the `&&` short-circuits to null; otherwise a present
`props.key` that is neither `null` nor `undefined` (loose `!= null`) is
kept, and anything else gives null. -/
def hKey (props : Option (List (String × JSVal))) : JSVal :=
  match props with
  | none => .nullV
  | some p =>
    match alookup "key" p with
    | some k => if k = .nullV ∨ k = .undefV then .nullV else k
    | none => .nullV

/-- The `patchChildren` array-vs-array branch test: both first children
exist (a vnode object is truthy) and both their keys are truthy. -/
def selectsKeyed (oldChildren newChildren : List VChild) : Bool :=
  match oldChildren, newChildren with
  | o :: _, n :: _ => truthy o.key && truthy n.key
  | _, _ => false

/-- C9, counterexample: a first child whose key is the (non-null) number 0 —
which `h` preserves as the key — makes `patchChildren` take the *unkeyed*
fallback, because the selection tests the key's truthiness and `0` is falsy.
The claim that a non-null key such as 0 or `""` selects the keyed diff is
therefore false on the code. -/
theorem keyed_selection_counterexample :
    hKey (some [("key", .num 0)]) = .num 0 ∧
    selectsKeyed [⟨.num 0⟩] [⟨.num 0⟩] = false ∧
    selectsKeyed [⟨.str ""⟩] [⟨.str ""⟩] = false := by
  decide

/-- C9 as amended: with both children lists non-empty arrays, the keyed diff
is selected if and only if both first children's keys are *truthy* (so keys
0, `""`, NaN, `false`, null and undefined all fall back to the unkeyed
diff), and an empty previous or next list always selects the unkeyed
fallback. -/
theorem keyed_selection_truthy :
    ∀ (o n : VChild) (os ns : List VChild),
      selectsKeyed (o :: os) (n :: ns) = (truthy o.key && truthy n.key) ∧
      selectsKeyed [] ns = false ∧
      selectsKeyed os [] = false := by
  intro o n os ns
  refine ⟨rfl, rfl, ?_⟩
  cases os <;> rfl

/-! ## Dependency graph engine (`effect`, `clean`, `track`)

From src/src/reactivity/watchEffect.ts:

    const effectFn = () => {
      clean(effectFn)
      activeEffect = effectFn
      effectStack.push(effectFn)
      const res = fn()
      effectStack.pop()
      activeEffect = effectStack[effectStack.length - 1]
      return res
    }
    effectFn.deps = []
    ...
    function clean(effectFn) {
      effectFn.deps?.forEach((deps) => deps.delete(effectFn))
    }
    function track(target, key) {
      if (!activeEffect) return
      let depsMap = targetMap.get(target)
      if (!depsMap) targetMap.set(target, (depsMap = new Map()))
      let deps = depsMap.get(key)
      if (!deps) depsMap.set(key, (deps = new Set()))
      deps.add(activeEffect)
    }

Targets and property keys are identified by `Nat` codes (the concrete runs
below use key 0 for `"a"` and key 1 for `"b"`); effects carry a `Nat` id.
The graph's per-(target,key) `Set` is an insertion-ordered duplicate-free
list.  `effectDeps` models each effect's `deps` array of references to the
graph's sets, a set reference being identified by its (target,key)
coordinate.  Note that `track` adds the active effect to the graph's set
but — exactly as in the source, which never executes
`activeEffect.deps.push(deps)` — does not record the set on the effect's
own `deps` list. -/

structure EffState where
  graph : List ((Nat × Nat) × List Nat)
  effectDeps : List (Nat × List (Nat × Nat))
deriving DecidableEq, Repr

/-- Membership list for a (target, key) pair; a missing entry is the empty set. -/
def graphGet (st : EffState) (tk : Nat × Nat) : List Nat :=
  match st.graph.find? (fun e => e.1 = tk) with
  | some e => e.2
  | none => []

/-- `deps.add(activeEffect)`: insertion-ordered set add on the graph's set
for `tk` (creating the map entries on demand, as `track` does). -/
def graphAdd (st : EffState) (tk : Nat × Nat) (e : Nat) : EffState :=
  let old := graphGet st tk
  let upd := if e ∈ old then old else old ++ [e]
  { st with graph := (st.graph.filter (fun en => en.1 ≠ tk)) ++ [(tk, upd)] }

/-- The `deps` list stored on effect `e` (initialised to `[]` by `effect`). -/
def depsOf (st : EffState) (e : Nat) : List (Nat × Nat) :=
  match st.effectDeps.find? (fun en => en.1 = e) with
  | some en => en.2
  | none => []

/-- `clean(effectFn)`: removes `e` from every graph set recorded on the
effect's own `deps` list. -/
def clean (st : EffState) (e : Nat) : EffState :=
  (depsOf st e).foldl
    (fun acc tk =>
      { acc with
        graph := acc.graph.map
          (fun en => if en.1 = tk then (en.1, en.2.filter (· ≠ e)) else en) })
    st

/-- `track(target, key)`: with no active effect this is a no-op; otherwise
the active effect is added to the graph's set for the key.  Faithful to the
source, the effect's own `deps` list is left untouched. -/
def track (st : EffState) (active : Option Nat) (tk : Nat × Nat) : EffState :=
  match active with
  | none => st
  | some e => graphAdd st tk e

/-- One run of `effectFn` whose body performs the reads `reads`:
`clean` first, then each read tracks against the now-active effect. -/
def runEffect (st : EffState) (e : Nat) (reads : List (Nat × Nat)) : EffState :=
  (reads.foldl (fun acc tk => track acc (some e) tk) (clean st e))

/-- C1 fails on the code: `track` records the new edge only in the graph's
set — the line adding the set to the subscriber's own `deps` list is
missing — so `clean` (which iterates that always-empty list) removes
nothing before a rerun.  Concretely: effect 1 reads key 0 (`"a"`) of
target 0 on its first run and only key 1 (`"b"`) on its second run; after
the rerun it is still a member of the dependency set for `"a"`, and its
`deps` list is still empty.  The claim requires it to belong only to
`"b"`'s set. -/
theorem track_leaves_stale_dependencies :
    graphGet (runEffect (runEffect ⟨[], [(1, [])]⟩ 1 [(0, 0)]) 1 [(0, 1)]) (0, 0)
      = [1] ∧
    graphGet (runEffect (runEffect ⟨[], [(1, [])]⟩ 1 [(0, 0)]) 1 [(0, 1)]) (0, 1)
      = [1] ∧
    depsOf (runEffect (runEffect ⟨[], [(1, [])]⟩ 1 [(0, 0)]) 1 [(0, 1)]) 1 = [] := by
  decide

/-! ## Watcher cleanup (`onInvalidate`) semantics

Both watcher variants share this job structure
(src/src/reactivity/watch.ts lines 72–89, src/src/reactivity/watchEffect.ts
lines 22–46):

    let cleanUp
    function onInvalidate(fn) { cleanUp = fn }
    const job = () => {
      ...
      if (cleanUp) cleanUp()
      cb(..., onInvalidate)
      ...
    }

`cleanUp` holds at most one pending function and is overwritten by each
registration, but it is never reset after being invoked.  Cleanup functions
are identified by `Nat` ids; `regs k` is the registration (if any) that the
callback makes during its `k`-th invocation. -/

structure CLState where
  cleanUp : Option Nat
  invoked : List (List Nat)
deriving DecidableEq, Repr

/-- One run of `job` for invocation index `k`: the retained cleanup (if
any) is invoked first, then the callback runs and may register a new
cleanup through `onInvalidate`. -/
def clJob (regs : Nat → Option Nat) (s : CLState) (k : Nat) : CLState :=
  let inv := match s.cleanUp with | some c => [c] | none => []
  let cu' := match regs k with | some c => some c | none => s.cleanUp
  { cleanUp := cu', invoked := s.invoked ++ [inv] }

/-- Run the callback `n` times from the initial state (no cleanup pending,
matching the fresh `let cleanUp` binding). -/
def clRun (regs : Nat → Option Nat) (n : Nat) : CLState :=
  (List.range n).foldl (clJob regs) ⟨none, []⟩

/-- The most recent registration made during invocations `0..n-1`. -/
def lastReg (regs : Nat → Option Nat) : Nat → Option Nat
  | 0 => none
  | n + 1 => match regs n with | some c => some c | none => lastReg regs n

/-- C8, counterexample: the callback registers cleanup 7 during its first
invocation and never again; cleanup 7 is then invoked before the second
invocation *and again* before the third — twice, not exactly once, because
`cleanUp` is never cleared after being invoked. -/
theorem cleanup_counterexample :
    (clRun (fun k => if k = 0 then some 7 else none) 3).invoked = [[], [7], [7]] := by
  decide

/-- C8 as amended: `onInvalidate` retains at most one pending cleanup and a
later registration supersedes the earlier one, but an invoked cleanup is
*not* cleared: before every invocation of the callback, the cleanup invoked
is exactly the most recent one registered during any earlier invocation
(none before the first).  Without re-registration the same cleanup
therefore runs again before each later callback invocation. -/
theorem cleanup_runs_until_superseded :
    ∀ (regs : Nat → Option Nat) (n : Nat),
      (clRun regs n).invoked = (List.range n).map (fun k => (lastReg regs k).toList) ∧
      (clRun regs n).cleanUp = lastReg regs n := by
  intro regs n
  induction n with
  | zero => exact ⟨rfl, rfl⟩
  | succ m ih =>
    have hrun : clRun regs (m + 1) = clJob regs (clRun regs m) m := by
      unfold clRun
      rw [List.range_succ, List.foldl_append, List.foldl_cons, List.foldl_nil]
    constructor
    · rw [hrun]
      show (clRun regs m).invoked ++ _ = _
      rw [ih.1, List.range_succ, List.map_append, List.map_cons, List.map_nil]
      congr 1
      rw [ih.2]
      cases lastReg regs m <;> rfl
    · rw [hrun]
      show (match regs m with | some c => some c | none => (clRun regs m).cleanUp) = _
      rw [ih.2]
      cases h : regs m <;> simp [lastReg, h]

/-! ## Derived values (`ComputedImpl`, src/unnamed/part_006 lines 62–102)

    constructor(getter, setter) {
      this.__value = undefined
      this.dirty = true
      this.effect = effect(getter, {
        lazy: true,
        scheduler: () => {
          if (!this.dirty) {
            this.dirty = true
            trigger(this, 'value')
          }
        }
      })
    }
    get value() {
      if (this.dirty) {
        this.__value = this.effect()
        this.dirty = false
        track(this, 'value')
      }
      return this.__value
    }

The getter's result is a function of the sources; source mutations are
counted by a generation number `gen`, so the underlying effect's run is
`getter gen`.  `getterRuns` instruments how often the effect (and so the
getter) has run. -/

structure CState (V : Type) where
  value : Option V
  dirty : Bool
  getterRuns : Nat
deriving Repr

/-- The initial `ComputedImpl` state: `__value = undefined`, `dirty = true`,
the lazy effect has not run. -/
def cInit (V : Type) : CState V := ⟨none, true, 0⟩

/-- The `value` getter: when dirty, reruns the underlying effect to refresh
the cache, clears `dirty` and tracks the read; otherwise returns the cache
untouched.  Yields the returned value and the successor state. -/
def computedRead (getter : Nat → V) (gen : Nat) (s : CState V) : Option V × CState V :=
  if s.dirty then
    let v := getter gen
    (some v, ⟨some v, false, s.getterRuns + 1⟩)
  else
    (s.value, s)

/-- The effect's scheduler, run by `trigger` on any of the computed's
sources: on the false-to-true dirty transition it sets `dirty` and fires
`trigger(this, 'value')` to the computed's own subscribers (the returned
Bool); otherwise it does nothing.  It never reruns the getter. -/
def computedSched (s : CState V) : CState V × Bool :=
  if !s.dirty then ({ s with dirty := true }, true) else (s, false)

/-- Events observable by a computed: a read of `.value`, or a mutation of a
tracked source (which bumps the generation and triggers the scheduler). -/
inductive CEvent where
  | read
  | sourceChange
deriving DecidableEq, Repr

/-- One event step over (computed state, source generation). -/
def cStep (getter : Nat → V) (s : CState V × Nat) : CEvent → CState V × Nat
  | .read => ((computedRead getter s.2 s.1).2, s.2)
  | .sourceChange => ((computedSched s.1).1, s.2 + 1)

/-- A trace of events. -/
def cRun (getter : Nat → V) (s : CState V × Nat) (evs : List CEvent) : CState V × Nat :=
  evs.foldl (cStep getter) s

/-- C5: (a) reading `.value` while `dirty = false` returns the cached value
and does not invoke the getter; (b) a source trigger only sets
`dirty := true`, never recomputes, and notifies the computed's own
subscribers exactly on the false-to-true transition; (c) from any
clean (`dirty = false`) state, a trace without source changes never runs
the getter — so between two successive reads with no dependency change the
getter runs at most once (only the first read can have computed); (d) after
a dependency change followed by a read, the getter runs exactly once. -/
theorem computed_cache_and_memoization (V : Type) (getter : Nat → V) :
    (∀ (s : CState V) (gen : Nat), s.dirty = false →
      (computedRead getter gen s).1 = s.value ∧ (computedRead getter gen s).2 = s) ∧
    (∀ s : CState V,
      (computedSched s).1.dirty = true ∧
      (computedSched s).1.value = s.value ∧
      (computedSched s).1.getterRuns = s.getterRuns ∧
      ((computedSched s).2 = true ↔ s.dirty = false)) ∧
    (∀ (s : CState V) (gen : Nat) (evs : List CEvent), s.dirty = false →
      (∀ e ∈ evs, e ≠ CEvent.sourceChange) →
      (cRun getter (s, gen) evs).1.getterRuns = s.getterRuns) ∧
    (∀ (s : CState V) (gen : Nat),
      (cRun getter (s, gen) [CEvent.sourceChange, CEvent.read]).1.getterRuns
        = s.getterRuns + 1) := by
  refine ⟨?_, ?_, ?_, ?_⟩
  · intro s gen h
    simp [computedRead, h]
  · intro s
    unfold computedSched
    cases h : s.dirty <;> simp [h]
  · intro s gen evs
    induction evs generalizing s gen with
    | nil => intro _ _; rfl
    | cons e rest ih =>
      intro hclean hno
      have he : e = CEvent.read := by
        cases e
        · rfl
        · exact absurd rfl (hno _ (List.mem_cons_self _ _))
      subst he
      show (cRun getter (cStep getter (s, gen) .read) rest).1.getterRuns = _
      have hstep : cStep getter (s, gen) .read = (s, gen) := by
        simp [cStep, computedRead, hclean]
      rw [hstep]
      exact ih s gen hclean (fun e he => hno e (List.mem_cons_of_mem _ he))
  · intro s gen
    show (cStep getter (cStep getter (s, gen) .sourceChange) .read).1.getterRuns = _
    simp [cStep, computedSched, computedRead]
    cases h : s.dirty <;> simp [h]

/-- Witness for C5 at `getter = id`, the clean state after a first read,
and the no-source-change trace `[read, read]`. -/
theorem computed_cache_and_memoization_witness :
    ((⟨some 0, false, 1⟩ : CState Nat).dirty = false ∧
      (computedRead id 0 ⟨some 0, false, 1⟩).1 = some 0) ∧
    (∀ e ∈ [CEvent.read, CEvent.read], e ≠ CEvent.sourceChange) ∧
    (cRun id ((⟨some 0, false, 1⟩ : CState Nat), 0) [CEvent.read, CEvent.read]).1.getterRuns = 1 ∧
    (cRun id ((⟨some 0, false, 1⟩ : CState Nat), 0)
      [CEvent.sourceChange, CEvent.read]).1.getterRuns = 2 := by
  have h := computed_cache_and_memoization Nat id
  refine ⟨⟨rfl, (h.1 ⟨some 0, false, 1⟩ 0 rfl).1⟩, by decide, ?_, ?_⟩
  · exact h.2.2.1 ⟨some 0, false, 1⟩ 0 [CEvent.read, CEvent.read] rfl (by decide)
  · exact h.2.2.2 ⟨some 0, false, 1⟩ 0

/-! ## `watch` (src/unnamed/part_005)

    if (isRef(source))        getter = () => source.value
    else if (isFunction(source)) getter = source
    else if (isObject(source))   getter = () => traverse(source)
    else                          getter = () => source

    const effectFn = effect(() => getter(), { lazy: true, scheduler: ... job ... })
    const job = () => {
      newVal = effectFn()
      if (cleanUp) cleanUp()
      cb(oldVal, newVal, onInvalidate)
      oldVal = newVal
    }
    oldVal = effectFn()
    if (options?.immediate) { job() }

A source reads values that may change over time; time is a source
generation `Nat` and each normalized getter is a function of it (a ref
reads its current `.value`; `traverse` returns the traversed object after
touching every key; a non-reactive plain value is constant).  `evals`
counts getter evaluations; `calls` records each `cb(oldVal, newVal)`
invocation, the old value being `undefined` (`none`) on an
`immediate:true` first call. -/

inductive WSource (V : Type) where
  | refSrc (read : Nat → V)
  | fnSrc (g : Nat → V)
  | objSrc (traverseVal : Nat → V)
  | plain (v : V)

/-- Source normalization into a zero-argument getter (the four branches of
`watch`): ref unwraps to `.value`, a function is used as-is, a composite
object is deep-traversed (returning the object), anything else is returned
directly. -/
def normalizeGetter : WSource V → (Nat → V)
  | .refSrc read => read
  | .fnSrc g => g
  | .objSrc t => t
  | .plain v => fun _ => v

structure WTrace (V : Type) where
  oldVal : Option V
  evals : Nat
  calls : List (Option V × V)

/-- `job`: re-evaluates the getter through the effect, invokes the callback
with (oldValue, newValue), and rolls the new value into the old. -/
def wJob (getter : Nat → V) (gen : Nat) (s : WTrace V) : WTrace V :=
  let nv := getter gen
  ⟨some nv, s.evals + 1, s.calls ++ [(s.oldVal, nv)]⟩

/-- `watch` subscription at generation 0: the lazy effect is created (no
evaluation), then `oldVal = effectFn()` evaluates the getter once; with
`immediate` the job additionally runs up front. -/
def watchSetup (getter : Nat → V) (immediate : Bool) : WTrace V :=
  let s1 : WTrace V := ⟨some (getter 0), 1, []⟩
  if immediate then wJob getter 0 s1 else s1

/-- A source change at generation `gen` triggers the watcher's scheduler,
which (in the default `flush` mode, and after the microtask in
`flush:'post'` mode) runs `job`. -/
def wTrigger (getter : Nat → V) (gen : Nat) (s : WTrace V) : WTrace V :=
  wJob getter gen s

/-- C6: `watch(source, cb)` without the immediate option evaluates the
normalized getter exactly once at subscription time, invokes no callback,
and stores the result as the old value; the first callback invocation after
a change therefore receives an `oldValue` equal to the getter's value at
subscription time (generation 0). -/
theorem watch_initial_old_value (V : Type) (src : WSource V) (gen₁ : Nat) :
    (watchSetup (normalizeGetter src) false).evals = 1 ∧
    (watchSetup (normalizeGetter src) false).calls = [] ∧
    (watchSetup (normalizeGetter src) false).oldVal = some (normalizeGetter src 0) ∧
    (wTrigger (normalizeGetter src) gen₁ (watchSetup (normalizeGetter src) false)).calls
      = [(some (normalizeGetter src 0), normalizeGetter src gen₁)] := by
  exact ⟨rfl, rfl, rfl, rfl⟩

/-! ## Component props update (`updateProps`, src/unnamed/part_002 lines 32–47)

    function updateProps(instance, vnode) {
      const { type: Compontent, props: vnodeProps } = vnode
      for (const key in vnodeProps) {
        if (Compontent.props?.includes(key)) {
          instance.props[key] = vnodeProps[key]
        } else {
          instance.attrs[key] = vnodeProps[key]
        }
      }
      instance.props = reactive(instance.props)
    }

`updateComponent` (src/unnamed/part_001 lines 389–396) stashes the next
vnode on the instance and invokes `instance.update()`, whose update branch
calls `updateProps` with the existing instance — so `instance.props` and
`instance.attrs` carry over from the previous vnode and this loop only ever
adds or overwrites entries.  The final `reactive` re-wrap is
identity-stable on the stored entries (the proxy is a view of the same
object), so it is not modelled separately.  Props/attrs records reuse the
association-list operations of the reactive-layer model; keys are `Nat`
codes of the JS property names. -/

/-- First-match lookup on a `Nat`-keyed record. -/
def plookup (key : Nat) : List (Nat × JSVal) → Option JSVal
  | [] => none
  | (k, v) :: rest => if k = key then some v else plookup key rest

/-- Overwrite-or-append update on a `Nat`-keyed record. -/
def pset (key : Nat) (v : JSVal) : List (Nat × JSVal) → List (Nat × JSVal)
  | [] => [(key, v)]
  | (k, w) :: rest => if k = key then (k, v) :: rest else (k, w) :: pset key v rest

/-- `updateProps`: fold the new vnode's props over the instance's existing
`props`/`attrs` pair, routing each entry by the component's declared
prop-name list. -/
def updateProps (declared : List Nat) (props attrs : List (Nat × JSVal))
    (vnodeProps : List (Nat × JSVal)) : List (Nat × JSVal) × List (Nat × JSVal) :=
  vnodeProps.foldl
    (fun pa kv =>
      if kv.1 ∈ declared then (pset kv.1 kv.2 pa.1, pa.2) else (pa.1, pset kv.1 kv.2 pa.2))
    (props, attrs)

theorem pset_lookup_other (key k : Nat) (v : JSVal) (l : List (Nat × JSVal))
    (h : k ≠ key) : plookup k (pset key v l) = plookup k l := by
  induction l with
  | nil =>
    have hx : ¬key = k := fun hh => h hh.symm
    simp [pset, plookup, hx]
  | cons kv rest ih =>
    obtain ⟨k', v'⟩ := kv
    by_cases hk : k' = key
    · subst hk
      have hx : ¬k' = k := fun hh => h hh.symm
      simp [pset, plookup, hx]
    · simp only [pset, if_neg hk, plookup]
      by_cases hkk : k' = k
      · simp [hkk]
      · simp [hkk, ih]

theorem pset_lookup_self (key : Nat) (v : JSVal) (l : List (Nat × JSVal)) :
    plookup key (pset key v l) = some v := by
  induction l with
  | nil => simp [pset, plookup]
  | cons kv rest ih =>
    obtain ⟨k', v'⟩ := kv
    by_cases hkv : k' = key
    · subst hkv
      simp [pset, plookup]
    · simp [pset, plookup, hkv, ih]

theorem pset_mem_preserved (key k : Nat) (v : JSVal) (l : List (Nat × JSVal))
    (h : (plookup k l).isSome) : (plookup k (pset key v l)).isSome := by
  by_cases hk : k = key
  · subst hk
    rw [pset_lookup_self]
    rfl
  · rwa [pset_lookup_other key k v l hk]

theorem updateProps_cons (declared : List Nat) (props attrs : List (Nat × JSVal))
    (kk : Nat) (vv : JSVal) (rest : List (Nat × JSVal)) :
    updateProps declared props attrs ((kk, vv) :: rest)
      = if kk ∈ declared then updateProps declared (pset kk vv props) attrs rest
        else updateProps declared props (pset kk vv attrs) rest := by
  unfold updateProps
  simp only [List.foldl_cons]
  by_cases hd : kk ∈ declared <;> simp [hd]

/-- C10: `updateProps` only adds or overwrites entries.  Every key absent
from the new vnode's props keeps its previous value in both `instance.props`
and `instance.attrs`, and every key previously present in either record is
still present afterwards — no prop or attr entry is ever deleted across
component updates. -/
theorem updateProps_never_deletes (declared : List Nat)
    (props attrs vnodeProps : List (Nat × JSVal)) (k : Nat)
    (habsent : plookup k vnodeProps = none) :
    plookup k (updateProps declared props attrs vnodeProps).1 = plookup k props ∧
    plookup k (updateProps declared props attrs vnodeProps).2 = plookup k attrs ∧
    (∀ (declared' : List Nat) (props' attrs' vnodeProps' : List (Nat × JSVal)) (k' : Nat),
      (plookup k' props').isSome →
      (plookup k' (updateProps declared' props' attrs' vnodeProps').1).isSome) ∧
    (∀ (declared' : List Nat) (props' attrs' vnodeProps' : List (Nat × JSVal)) (k' : Nat),
      (plookup k' attrs').isSome →
      (plookup k' (updateProps declared' props' attrs' vnodeProps').2).isSome) := by
  refine ⟨?_, ?_, ?_, ?_⟩
  · induction vnodeProps generalizing props attrs with
    | nil => rfl
    | cons kv rest ih =>
      obtain ⟨kk, vv⟩ := kv
      simp only [plookup] at habsent
      by_cases hk : kk = k
      · rw [if_pos hk] at habsent; exact absurd habsent (by simp)
      · rw [if_neg hk] at habsent
        rw [updateProps_cons]
        by_cases hd : kk ∈ declared
        · rw [if_pos hd, ih (pset kk vv props) attrs habsent,
            pset_lookup_other kk k vv props (fun h => hk h.symm)]
        · rw [if_neg hd]
          exact ih props (pset kk vv attrs) habsent
  · induction vnodeProps generalizing props attrs with
    | nil => rfl
    | cons kv rest ih =>
      obtain ⟨kk, vv⟩ := kv
      simp only [plookup] at habsent
      by_cases hk : kk = k
      · rw [if_pos hk] at habsent; exact absurd habsent (by simp)
      · rw [if_neg hk] at habsent
        rw [updateProps_cons]
        by_cases hd : kk ∈ declared
        · rw [if_pos hd]
          exact ih (pset kk vv props) attrs habsent
        · rw [if_neg hd, ih props (pset kk vv attrs) habsent,
            pset_lookup_other kk k vv attrs (fun h => hk h.symm)]
  · intro declared' props' attrs' vnodeProps' k' hsome
    induction vnodeProps' generalizing props' attrs' with
    | nil => exact hsome
    | cons kv rest ih =>
      obtain ⟨kk, vv⟩ := kv
      rw [updateProps_cons]
      by_cases hd : kk ∈ declared'
      · rw [if_pos hd]
        exact ih (pset kk vv props') attrs' (pset_mem_preserved kk k' vv props' hsome)
      · rw [if_neg hd]
        exact ih props' (pset kk vv attrs') hsome
  · intro declared' props' attrs' vnodeProps' k' hsome
    induction vnodeProps' generalizing props' attrs' with
    | nil => exact hsome
    | cons kv rest ih =>
      obtain ⟨kk, vv⟩ := kv
      rw [updateProps_cons]
      by_cases hd : kk ∈ declared'
      · rw [if_pos hd]
        exact ih (pset kk vv props') attrs' hsome
      · rw [if_neg hd]
        exact ih props' (pset kk vv attrs') (pset_mem_preserved kk k' vv attrs' hsome)

/-- Witness for C10: an instance with a declared prop `0 ↦ 1` and an attr
`1 ↦ 2`, updated from a vnode that only sets key 2 — keys 0 and 1 keep
their previous values. -/
theorem updateProps_never_deletes_witness :
    plookup 0 [(2, JSVal.num 9)] = none ∧
    plookup 0 (updateProps [0, 2] [(0, JSVal.num 1)] [(1, JSVal.num 2)]
      [(2, JSVal.num 9)]).1 = some (JSVal.num 1) := by
  have h := updateProps_never_deletes [0, 2] [(0, JSVal.num 1)] [(1, JSVal.num 2)]
    [(2, JSVal.num 9)] 0 (by decide)
  exact ⟨by decide, by rw [h.1]; decide⟩

/-! ## Job scheduler (`queueJob` / `flushJob`, src/src/runtime/scheduler.ts)

    const jobQueue = new Set()
    let isFlushing = false
    export function queueJob(fn) { jobQueue.add(fn); flushJob() }
    export function flushJob() {
      if (isFlushing) return
      isFlushing = true
      currentFlushPromise = resolvePromise
        .then(() => { jobQueue.forEach((fn) => fn()) })
        .finally(() => { isFlushing = false; jobQueue.clear(); currentFlushPromise = null })
    }

The queue is an insertion-ordered set.  During the flush's
`jobQueue.forEach`, a job's body may call `queueJob` again: `flushJob`
returns immediately (`isFlushing` is set), and `Set.prototype.forEach`
*does* visit values added to the set while the iteration is in progress —
so such a job runs in the current flush, after every earlier entry; the
`finally` then clears the queue, so it is never run by a later flush.

Jobs are `Nat` ids; `effects j` lists the jobs that running `j` enqueues.
`flushAux` iterates the evolving queue by position (exactly the visiting
order of `Set.forEach` under append-only additions) with explicit fuel,
returning `none` if the fuel is exhausted (a genuinely unbounded cascade of
fresh jobs would make the real `forEach` loop forever as well).  The run
sequence of the flush is the final queue, which `flushJob` then clears. -/

/-- `jobQueue.add`: append unless already present (Set semantics). -/
def queueAdd (q : List Nat) (j : Nat) : List Nat :=
  if j ∈ q then q else q ++ [j]

/-- The `jobQueue.forEach((fn) => fn())` pass: visit position `i`; running
the job enqueues its effects (each a no-op `flushJob` plus `jobQueue.add`);
stop when the position reaches the (current) end of the queue. -/
def flushAux (effects : Nat → List Nat) : Nat → List Nat → Nat → Option (List Nat)
  | 0, _, _ => none
  | fuel + 1, q, i =>
    if h : i < q.length then
      flushAux effects fuel ((effects (q.get ⟨i, h⟩)).foldl queueAdd q) (i + 1)
    else
      some q

/-- One whole flush from an initial queue: the visited run sequence (in
order) paired with the queue after the `finally` clears it. -/
def flushJob (effects : Nat → List Nat) (fuel : Nat) (q : List Nat) :
    Option (List Nat × List Nat) :=
  match flushAux effects fuel q 0 with
  | some ran => some (ran, [])
  | none => none

/-- C4, counterexample: job 0's body enqueues job 1 (not pending before the
flush).  The current flush runs `[0, 1]` — job 1 runs in the *current*
flush — and the queue is cleared afterwards, so no later flush ever runs
job 1.  The claim that a callback enqueued during a flush is deferred to
the next flush is false on the code. -/
theorem flush_runs_jobs_enqueued_during_flush :
    flushJob (fun j => if j = 0 then [1] else []) 10 [0] = some ([0, 1], []) ∧
    (1 : Nat) ∉ [0] := by
  constructor
  · rfl
  · decide

theorem queueAdd_initSeg (q : List Nat) (j : Nat) : q <+: queueAdd q j := by
  unfold queueAdd
  by_cases h : j ∈ q
  · simp [h]
  · simp [h]

theorem foldl_queueAdd_initSeg (q : List Nat) (js : List Nat) :
    q <+: js.foldl queueAdd q := by
  induction js generalizing q with
  | nil => exact List.prefix_refl q
  | cons j rest ih => exact (queueAdd_initSeg q j).trans (ih (queueAdd q j))

theorem queueAdd_nodup (q : List Nat) (j : Nat) (h : q.Nodup) :
    (queueAdd q j).Nodup := by
  unfold queueAdd
  by_cases hm : j ∈ q
  · simpa [hm]
  · rw [if_neg hm]
    exact List.Nodup.append h (List.nodup_singleton j) (by simpa using hm)

theorem foldl_queueAdd_nodup (q : List Nat) (js : List Nat) (h : q.Nodup) :
    (js.foldl queueAdd q).Nodup := by
  induction js generalizing q with
  | nil => exact h
  | cons j rest ih => exact ih (queueAdd q j) (queueAdd_nodup q j h)

theorem queueAdd_mem (q : List Nat) (j : Nat) : j ∈ queueAdd q j := by
  unfold queueAdd
  by_cases h : j ∈ q <;> simp [h]

theorem foldl_queueAdd_mem (q : List Nat) (js : List Nat) (j : Nat) (h : j ∈ js) :
    j ∈ js.foldl queueAdd q := by
  induction js generalizing q with
  | nil => cases h
  | cons x rest ih =>
    rcases List.mem_cons.mp h with h | h
    · subst h
      exact (foldl_queueAdd_initSeg (queueAdd q j) rest).subset (queueAdd_mem q j)
    · exact ih (queueAdd q x) h

theorem flushAux_initSeg (effects : Nat → List Nat) (fuel : Nat) :
    ∀ (q : List Nat) (i : Nat) (ran : List Nat),
      flushAux effects fuel q i = some ran → q <+: ran := by
  induction fuel with
  | zero => intro q i ran h; cases h
  | succ n ih =>
    intro q i ran h
    unfold flushAux at h
    split at h
    · exact (foldl_queueAdd_initSeg q _).trans (ih _ _ _ h)
    · cases h
      exact List.prefix_refl _

theorem flushAux_nodup (effects : Nat → List Nat) (fuel : Nat) :
    ∀ (q : List Nat) (i : Nat) (ran : List Nat),
      flushAux effects fuel q i = some ran → q.Nodup → ran.Nodup := by
  induction fuel with
  | zero => intro q i ran h; cases h
  | succ n ih =>
    intro q i ran h hq
    unfold flushAux at h
    split at h
    · exact ih _ _ _ h (foldl_queueAdd_nodup q _ hq)
    · cases h
      exact hq

theorem initSeg_get {l₁ l₂ : List Nat} (h : l₁ <+: l₂) (i : Nat)
    (h₁ : i < l₁.length) (h₂ : i < l₂.length) :
    l₂.get ⟨i, h₂⟩ = l₁.get ⟨i, h₁⟩ := by
  obtain ⟨t, rfl⟩ := h
  simp [List.getElem_append_left h₁]

theorem flushAux_closure (effects : Nat → List Nat) (fuel : Nat) :
    ∀ (q : List Nat) (i : Nat) (ran : List Nat),
      flushAux effects fuel q i = some ran →
      ∀ k (hk : k < ran.length), i ≤ k → ∀ x ∈ effects (ran.get ⟨k, hk⟩), x ∈ ran := by
  induction fuel with
  | zero => intro q i ran h; cases h
  | succ n ih =>
    intro q i ran h k hk hik x hx
    unfold flushAux at h
    split at h
    next hlt =>
      rcases Nat.eq_or_lt_of_le hik with heq | hlt2
      · cases heq
        have hpr : q <+: ran := (foldl_queueAdd_initSeg q _).trans (flushAux_initSeg effects n _ _ _ h)
        have hget : ran.get ⟨i, hk⟩ = q.get ⟨i, hlt⟩ := initSeg_get hpr i hlt hk
        rw [hget] at hx
        have hmem : x ∈ (effects (q.get ⟨i, hlt⟩)).foldl queueAdd q :=
          foldl_queueAdd_mem q _ x hx
        exact (flushAux_initSeg effects n _ _ _ h).subset hmem
      · exact ih _ _ _ h k hk hlt2 x hx
    next =>
      cases h
      omega

/-- C4 as amended: within a flush, the callbacks queued before the flush
started run once each, in first-enqueued order (the initial queue is a
duplicate-free prefix of the run sequence); and a callback enqueued via
`queueJob` *while* the flush is executing is run by that same flush — the
set iteration visits entries added during it — after which the queue is
cleared, so it is not run by a later flush. -/
theorem flush_order_and_during_flush_enqueues (effects : Nat → List Nat)
    (fuel : Nat) (q ran : List Nat)
    (h : flushJob effects fuel q = some (ran, [])) (hq : q.Nodup) :
    q <+: ran ∧ ran.Nodup ∧
    (∀ k (hk : k < ran.length), ∀ x ∈ effects (ran.get ⟨k, hk⟩), x ∈ ran) := by
  have haux : flushAux effects fuel q 0 = some ran := by
    unfold flushJob at h
    cases hcase : flushAux effects fuel q 0 with
    | none => rw [hcase] at h; cases h
    | some r =>
      rw [hcase] at h
      cases h
      rfl
  exact ⟨flushAux_initSeg effects fuel q 0 ran haux,
    flushAux_nodup effects fuel q 0 ran haux hq,
    fun k hk x hx => flushAux_closure effects fuel q 0 ran haux k hk (Nat.zero_le k) x hx⟩

/-- Witness for C4's amended theorem on the counterexample scenario: job 0
enqueues job 1 mid-flush; the initial `[0]` is a nodup prefix of the run
sequence `[0, 1]`, and every job enqueued by a visited job was itself run. -/
theorem flush_order_and_during_flush_enqueues_witness :
    flushJob (fun j => if j = 0 then [1] else []) 10 [0] = some ([0, 1], []) ∧
    [0].Nodup ∧ ([0] <+: [0, 1] ∧ ([0, 1] : List Nat).Nodup ∧
      (∀ k (hk : k < ([0, 1] : List Nat).length),
        ∀ x ∈ (fun j => if j = 0 then [1] else []) (([0, 1] : List Nat).get ⟨k, hk⟩),
          x ∈ ([0, 1] : List Nat))) := by
  refine ⟨rfl, by decide, ?_⟩
  exact flush_order_and_during_flush_enqueues (fun j => if j = 0 then [1] else [])
    10 [0] [0, 1] rfl (by decide)

/-! ## `getSequence` (src/unnamed/part_001 lines 786–827)

    function getSequence(nums) {
      const result = []
      const position = []
      for (let i = 0; i < nums.length; i++) {
        if (nums[i] === -1) continue
        if (nums[i] > result[result.length - 1]) {
          result.push(nums[i])
          position.push(result.length - 1)
        } else {
          let l = 0, r = result.length - 1
          while (l <= r) {
            const mid = ~~((l + r) / 2)
            if (nums[i] > result[mid]) { l = mid + 1 }
            else if (nums[i] < result[mid]) { r = mid - 1 }
            else { l = mid; break }
          }
          result[l] = nums[i]
          position.push(l)
        }
      }
      let cur = result.length - 1
      for (let i = position.length - 1; i >= 0 && cur >= 0; i--) {
        if (position[i] === cur) { result[cur--] = i }
      }
      return result
    }

The `while` loop's bounds are reparameterized with an exclusive right end
`rEx = r + 1` so they stay in `Nat` (in the source `r` can reach `-1`,
which is exactly `rEx = 0`); `mid = ~~((l + r) / 2)` becomes
`(l + rEx - 1) / 2`, the same value for the reachable `0 ≤ l ≤ r`.  Both
loops take the number of remaining iterations as an explicit structural
argument so that they compute by kernel reduction: for the binary search it
is the interval width `rEx - l`, which strictly shrinks every iteration;
for the backtrack loop it is `i + 1`, the scan index being decremented by
one each iteration (so the `Nat` argument *is* the source's `i`, and `0`
is the exit `i = -1`).  With an empty `result` the source's
`nums[i] > undefined` comparison is false, so control falls into the
`else` branch, whose loop body does not run and whose assignment
`result[0] = nums[i]` appends — JS array index assignment at the current
length extends the array, modelled by `arraySet`. -/

/-- JS `result[i] = x` for `i ≤ result.length`: in-range writes update, a
write at the current length appends. -/
def arraySet (t : List Int) (i : Nat) (x : Int) : List Int :=
  if i < t.length then t.set i x else t ++ [x]

/-- The source's binary search (`while (l <= r)`), right bound exclusive,
with the interval width as structural fuel (sufficient: each iteration
strictly shrinks the interval, see `bsGo_width`). -/
def bsGo (tails : List Int) (x : Int) : Nat → Nat → Nat → Nat
  | 0, l, _ => l
  | width + 1, l, rEx =>
    if l < rEx then
      let mid := (l + rEx - 1) / 2
      if tails.getD mid 0 < x then bsGo tails x width (mid + 1) rEx
      else if x < tails.getD mid 0 then bsGo tails x width l mid
      else mid
    else l

def bsLoop (tails : List Int) (x : Int) (l rEx : Nat) : Nat :=
  bsGo tails x (rEx - l) l rEx

/-- `nums[i] > result[result.length - 1]`: false on an empty `result`
(comparison with `undefined`). -/
def pushCond (tails : List Int) (x : Int) : Bool :=
  match tails.getLast? with
  | some last => decide (last < x)
  | none => false

structure LisState where
  tails : List Int
  pos : List Nat
deriving DecidableEq, Repr

/-- One iteration of the first loop of `getSequence` for the element `x`. -/
def lisStep (s : LisState) (x : Int) : LisState :=
  if x = -1 then s
  else if pushCond s.tails x then
    { tails := s.tails ++ [x], pos := s.pos ++ [s.tails.length] }
  else
    let l := bsLoop s.tails x 0 s.tails.length
    { tails := arraySet s.tails l x, pos := s.pos ++ [l] }

/-- The backtrack loop: scans `position` from the right, overwriting
`result[cur]` with the scan index whenever `position[i] === cur`.  The
first argument is the source's `i + 1`, so `iN + 1` stands for scan index
`iN` and `0` is the loop exit at `i = -1`. -/
def btGo (pos : List Nat) : Nat → List Int → Int → List Int
  | 0, res, _ => res
  | iN + 1, res, cur =>
    if 0 ≤ cur then
      if (pos.getD iN 0 : Int) = cur then
        btGo pos iN (res.set cur.toNat (iN : Int)) (cur - 1)
      else btGo pos iN res cur
    else res

def getSequence (nums : List Int) : List Int :=
  let s := nums.foldl lisStep ⟨[], []⟩
  btGo s.pos s.pos.length s.tails ((s.tails.length : Int) - 1)

/-- C3, counterexample: on `[-1, 5]` (one sentinel, one value) the function
returns `[0]` — but index 0 of the input is the sentinel position, and the
unique longest strictly-increasing subsequence of the non-sentinel values
sits at original index 1.  The returned indices are positions in the
sentinel-compacted sequence, not in the original array, so the claim as
stated is false. -/
theorem getSequence_counterexample :
    getSequence [-1, 5] = [0] ∧ ([-1, 5] : List Int).getD 0 0 = -1 ∧
    ([-1, 5] : List Int).getD 1 0 = 5 := by
  refine ⟨?_, rfl, rfl⟩
  rfl

/-! ### Generic list helpers for the LIS development -/

theorem getD_snoc_lt {α : Type} (l : List α) (x d : α) (i : Nat) (h : i < l.length) :
    (l ++ [x]).getD i d = l.getD i d :=
  List.getD_append l [x] d i h

theorem getD_snoc_len {α : Type} (l : List α) (x d : α) :
    (l ++ [x]).getD l.length d = x := by
  rw [List.getD_append_right l [x] d l.length (Nat.le_refl _), Nat.sub_self]
  rfl

theorem getD_set_self (l : List Int) (i : Nat) (x : Int) (h : i < l.length) :
    (l.set i x).getD i 0 = x := by
  rw [List.getD_eq_getElem _ _ (by simpa using h)]
  simp [List.getElem_set, h]

theorem getD_set_ne (l : List Int) (i j : Nat) (x : Int) (h : i ≠ j) :
    (l.set i x).getD j 0 = l.getD j 0 := by
  by_cases hj : j < l.length
  · rw [List.getD_eq_getElem _ _ (by simpa using hj), List.getD_eq_getElem _ _ hj]
    simp [List.getElem_set, h]
  · rw [List.getD_eq_default _ _ (by simpa using Nat.le_of_not_lt hj),
      List.getD_eq_default _ _ (Nat.le_of_not_lt hj)]

theorem pairwise_getD_lt (l : List Int) (h : l.Pairwise (· < ·)) (i j : Nat)
    (hij : i < j) (hj : j < l.length) : l.getD i 0 < l.getD j 0 := by
  have hi : i < l.length := Nat.lt_trans hij hj
  rw [List.getD_eq_getElem _ _ hi, List.getD_eq_getElem _ _ hj]
  exact List.pairwise_iff_getElem.mp h i j hi hj hij

/-- A strictly increasing list of naturals all below `L` has at most `L`
elements. -/
theorem pairwise_lt_length_le (l : List Nat) (L : Nat) (hp : l.Pairwise (· < ·))
    (hb : ∀ x ∈ l, x < L) : l.length ≤ L := by
  have hnd : l.Nodup := hp.imp (fun h => Nat.ne_of_lt h)
  have hsub : l.toFinset ⊆ Finset.range L := by
    intro x hx
    rw [Finset.mem_range]
    exact hb x (List.mem_toFinset.mp hx)
  calc l.length = l.toFinset.card := (List.toFinset_card_of_nodup hnd).symm
    _ ≤ (Finset.range L).card := Finset.card_le_card hsub
    _ = L := Finset.card_range L

/-- `foldl max` bounds its members from above. -/
theorem mem_le_foldl_max :
    ∀ (l : List Nat) (a : Nat), (∀ x ∈ l, x ≤ l.foldl max a) ∧ a ≤ l.foldl max a := by
  intro l
  induction l with
  | nil => intro a; exact ⟨fun x hx => absurd hx (List.not_mem_nil x), Nat.le_refl a⟩
  | cons b rest ih =>
    intro a
    constructor
    · intro x hx
      rcases List.mem_cons.mp hx with rfl | hx
      · exact Nat.le_trans (Nat.le_max_right a x) (ih (max a x)).2
      · exact (ih (max a b)).1 x hx
    · exact Nat.le_trans (Nat.le_max_left a b) (ih (max a b)).2

theorem foldl_max_le :
    ∀ (l : List Nat) (a B : Nat), (∀ x ∈ l, x ≤ B) → a ≤ B → l.foldl max a ≤ B := by
  intro l
  induction l with
  | nil => intro a B _ ha; exact ha
  | cons b rest ih =>
    intro a B hb ha
    exact ih (max a b) B (fun x hx => hb x (List.mem_cons_of_mem b hx))
      (Nat.max_le.mpr ⟨ha, hb b (List.mem_cons_self b rest)⟩)

/-- Every sublist is the image of a strictly increasing in-bounds index list. -/
theorem sublist_exists_index_list {c t : List Int} (h : List.Sublist t c) :
    ∃ idxs : List Nat, idxs.Pairwise (· < ·) ∧ (∀ i ∈ idxs, i < c.length) ∧
      t = idxs.map (fun i => c.getD i 0) := by
  induction h with
  | slnil => exact ⟨[], List.Pairwise.nil, fun i hi => absurd hi (List.not_mem_nil i), rfl⟩
  | cons a h ih =>
    obtain ⟨idxs, hp, hb, he⟩ := ih
    refine ⟨idxs.map (· + 1), ?_, ?_, ?_⟩
    · rw [List.pairwise_map]
      exact hp.imp (fun hxy => by omega)
    · intro i hi
      obtain ⟨y, hy, rfl⟩ := List.mem_map.mp hi
      have := hb y hy
      simp only [List.length_cons]
      omega
    · rw [he, List.map_map]
      exact List.map_congr_left (fun i _ => rfl)
  | cons₂ a h ih =>
    obtain ⟨idxs, hp, hb, he⟩ := ih
    refine ⟨0 :: idxs.map (· + 1), ?_, ?_, ?_⟩
    · rw [List.pairwise_cons]
      refine ⟨?_, ?_⟩
      · intro x hx
        obtain ⟨y, _, rfl⟩ := List.mem_map.mp hx
        omega
      · rw [List.pairwise_map]
        exact hp.imp (fun hxy => by omega)
    · intro i hi
      rcases List.mem_cons.mp hi with rfl | hi
      · simp
      · obtain ⟨y, hy, rfl⟩ := List.mem_map.mp hi
        have := hb y hy
        simp only [List.length_cons]
        omega
    · simp only [List.map_cons, List.map_map, List.getD_cons_zero]
      rw [List.cons_inj_right, he]
      exact List.map_congr_left (fun i _ => rfl)

/-- Conversely, a strictly increasing in-bounds index list picks out a
sublist. -/
theorem map_getD_sublist :
    ∀ (c : List Int) (idxs : List Nat), idxs.Pairwise (· < ·) →
      (∀ i ∈ idxs, i < c.length) → List.Sublist (idxs.map (fun i => c.getD i 0)) c := by
  intro c
  induction c with
  | nil =>
    intro idxs _ hb
    cases idxs with
    | nil => exact List.Sublist.refl []
    | cons i rest => exact absurd (hb i (List.mem_cons_self i rest)) (by simp)
  | cons a c' ih =>
    intro idxs hp hb
    cases idxs with
    | nil => exact List.nil_sublist _
    | cons i rest =>
      have hrest : ∀ j ∈ rest, i < j := (List.pairwise_cons.mp hp).1
      have hp' : rest.Pairwise (· < ·) := (List.pairwise_cons.mp hp).2
      have hshift : rest.map (fun j => (a :: c').getD j 0)
          = (rest.map (· - 1)).map (fun j => c'.getD j 0) := by
        rw [List.map_map]
        refine List.map_congr_left ?_
        intro j hj
        have h1 : 1 ≤ j := Nat.lt_of_le_of_lt (Nat.zero_le i) (hrest j hj)
        show (a :: c').getD j 0 = c'.getD (j - 1) 0
        obtain ⟨j', rfl⟩ := Nat.exists_eq_add_of_le h1
        simp [List.getD_cons_succ, Nat.add_comm 1 j']
      have hsub : List.Sublist ((rest.map (· - 1)).map (fun j => c'.getD j 0)) c' := by
        refine ih (rest.map (· - 1)) ?_ ?_
        · rw [List.pairwise_map]
          refine hp'.imp_of_mem ?_
          intro x y hx _ hxy
          have : i < x := hrest x hx
          omega
        · intro j hj
          obtain ⟨y, hy, rfl⟩ := List.mem_map.mp hj
          have h1 := hb y (List.mem_cons_of_mem i hy)
          have h2 := hrest y hy
          simp only [List.length_cons] at h1
          omega
      cases i with
      | zero =>
        simp only [List.map_cons, List.getD_cons_zero]
        rw [hshift]
        exact List.Sublist.cons₂ a hsub
      | succ i' =>
        simp only [List.map_cons]
        have hhead : (a :: c').getD (i' + 1) 0 = c'.getD i' 0 := List.getD_cons_succ ..
        rw [hhead, hshift]
        refine List.Sublist.cons a ?_
        have hone : c'.getD i' 0 :: (rest.map (· - 1)).map (fun j => c'.getD j 0)
            = (i' :: rest.map (· - 1)).map (fun j => c'.getD j 0) := rfl
        rw [hone]
        refine ih (i' :: rest.map (· - 1)) ?_ ?_
        · rw [List.pairwise_cons]
          constructor
          · intro x hx
            obtain ⟨y, hy, rfl⟩ := List.mem_map.mp hx
            have := hrest y hy
            omega
          · rw [List.pairwise_map]
            refine hp'.imp_of_mem ?_
            intro x y hx _ hxy
            have : i' + 1 < x := hrest x hx
            omega
        · intro j hj
          rcases List.mem_cons.mp hj with rfl | hj
          · have := hb (j + 1) (List.mem_cons_self _ _)
            simp only [List.length_cons] at this
            omega
          · obtain ⟨y, hy, rfl⟩ := List.mem_map.mp hj
            have h1 := hb y (List.mem_cons_of_mem _ hy)
            have h2 := hrest y hy
            simp only [List.length_cons] at h1
            omega

/-- A list whose consecutive entries (via `getD`) strictly increase is
strictly increasing (`Pairwise`). -/
theorem pairwise_of_consecutive_getD (l : List Int)
    (h : ∀ q, q + 1 < l.length → l.getD q 0 < l.getD (q + 1) 0) :
    l.Pairwise (· < ·) := by
  rw [List.pairwise_iff_getElem]
  intro i j hi hj hij
  have key : ∀ d, ∀ jj, jj < l.length → i < jj → jj = i + 1 + d → l.getD i 0 < l.getD jj 0 := by
    intro d
    induction d with
    | zero =>
      intro jj hjj _ he
      subst he
      exact h i (by omega)
    | succ d' ihd =>
      intro jj hjj hlt he
      have hprev : l.getD i 0 < l.getD (i + 1 + d') 0 := ihd (i + 1 + d') (by omega) (by omega) rfl
      have hstep : l.getD (i + 1 + d') 0 < l.getD (i + 1 + d' + 1) 0 := h (i + 1 + d') (by omega)
      subst he
      calc l.getD i 0 < l.getD (i + 1 + d') 0 := hprev
        _ < l.getD (i + 1 + d' + 1) 0 := by
          have : i + 1 + (d' + 1) = i + 1 + d' + 1 := by omega
          rw [this] at *
          exact hstep
  have := key (j - i - 1) j hj hij (by omega)
  rw [List.getD_eq_getElem _ _ hi, List.getD_eq_getElem _ _ hj] at this
  exact this

/-! ### Characterization of the binary search

`lbL tails x` is the leftmost index whose entry is `≥ x` (or `tails.length`
if none); on a strictly sorted `tails` the source's binary search computes
exactly this, including through its equality early exit. -/

def lbL : List Int → Int → Nat
  | [], _ => 0
  | v :: t, x => if x ≤ v then 0 else lbL t x + 1

theorem lbL_le_length (t : List Int) (x : Int) : lbL t x ≤ t.length := by
  induction t with
  | nil => exact Nat.le_refl 0
  | cons v rest ih =>
    unfold lbL
    by_cases h : x ≤ v
    · simp [h]
    · simp only [if_neg h, List.length_cons]
      omega

theorem lbL_lt (t : List Int) (x : Int) (k : Nat) (hk : k < lbL t x) :
    t.getD k 0 < x := by
  induction t generalizing k with
  | nil => simp [lbL] at hk
  | cons v rest ih =>
    unfold lbL at hk
    by_cases h : x ≤ v
    · rw [if_pos h] at hk; omega
    · rw [if_neg h] at hk
      cases k with
      | zero => simpa using Int.not_le.mp h
      | succ k' =>
        rw [List.getD_cons_succ]
        exact ih k' (by omega)

theorem lbL_ge (t : List Int) (x : Int) (h : lbL t x < t.length) :
    x ≤ t.getD (lbL t x) 0 := by
  induction t with
  | nil => simp at h
  | cons v rest ih =>
    unfold lbL at h ⊢
    by_cases hx : x ≤ v
    · simp [hx]
    · rw [if_neg hx] at h ⊢
      rw [List.getD_cons_succ]
      exact ih (by simpa using Nat.lt_of_succ_lt_succ h)

theorem lbL_unique (t : List Int) (x : Int) (n : Nat)
    (h1 : ∀ k, k < n → t.getD k 0 < x)
    (h2 : n = t.length ∨ x ≤ t.getD n 0)
    (h3 : n ≤ t.length) : n = lbL t x := by
  rcases Nat.lt_trichotomy n (lbL t x) with h | h | h
  · have hlt := lbL_lt t x n h
    have hn : n < t.length := Nat.lt_of_lt_of_le h (lbL_le_length t x)
    rcases h2 with he | hge
    · omega
    · exact absurd hge (Int.not_le.mpr hlt)
  · exact h
  · have hge := lbL_ge t x (Nat.lt_of_lt_of_le h h3)
    have hlt := h1 (lbL t x) h
    exact absurd hge (Int.not_le.mpr hlt)

theorem bsGo_eq_lbL (tails : List Int) (x : Int) (hs : tails.Pairwise (· < ·)) :
    ∀ (width l rEx : Nat), rEx - l ≤ width → l ≤ rEx → rEx ≤ tails.length →
      (∀ k, k < l → tails.getD k 0 < x) →
      (∀ k, rEx ≤ k → k < tails.length → x ≤ tails.getD k 0) →
      bsGo tails x width l rEx = lbL tails x := by
  intro width
  induction width with
  | zero =>
    intro l rEx hw hle hlen hleft hright
    have hl : l = rEx := by omega
    subst hl
    show l = lbL tails x
    refine lbL_unique tails x l hleft ?_ hlen
    by_cases hll : l < tails.length
    · exact Or.inr (hright l (Nat.le_refl l) hll)
    · exact Or.inl (by omega)
  | succ w ih =>
    intro l rEx hw hle hlen hleft hright
    show bsGo tails x (w + 1) l rEx = lbL tails x
    unfold bsGo
    by_cases hlr : l < rEx
    · rw [if_pos hlr]
      have hmid1 : l ≤ (l + rEx - 1) / 2 := by omega
      have hmid2 : (l + rEx - 1) / 2 < rEx := by omega
      have hmidlen : (l + rEx - 1) / 2 < tails.length := Nat.lt_of_lt_of_le hmid2 hlen
      by_cases hvx : tails.getD ((l + rEx - 1) / 2) 0 < x
      · simp only [if_pos hvx]
        refine ih ((l + rEx - 1) / 2 + 1) rEx (by omega) (by omega) hlen ?_ hright
        intro k hk
        rcases Nat.lt_or_ge k l with hkl | hkl
        · exact hleft k hkl
        · rcases Nat.lt_or_ge k ((l + rEx - 1) / 2) with hkm | hkm
          · exact Int.lt_trans (pairwise_getD_lt tails hs k _ hkm hmidlen) hvx
          · have : k = (l + rEx - 1) / 2 := by omega
            rw [this]
            exact hvx
      · rw [if_neg hvx]
        by_cases hxv : x < tails.getD ((l + rEx - 1) / 2) 0
        · simp only [if_pos hxv]
          refine ih l ((l + rEx - 1) / 2) (by omega) (by omega) (by omega) hleft ?_
          intro k hk hklen
          rcases Nat.eq_or_lt_of_le hk with he | hlt
          · rw [← he]
            exact Int.le_of_lt hxv
          · exact Int.le_of_lt (Int.lt_trans hxv (pairwise_getD_lt tails hs _ k hlt hklen))
        · simp only [if_neg hxv]
          have heq : tails.getD ((l + rEx - 1) / 2) 0 = x := by omega
          refine lbL_unique tails x _ ?_ (Or.inr (by rw [heq])) (Nat.le_of_lt hmidlen)
          intro k hk
          rcases Nat.lt_or_ge k l with hkl | hkl
          · exact hleft k hkl
          · rw [← heq]
            exact pairwise_getD_lt tails hs k _ hk hmidlen
    · rw [if_neg hlr]
      have hl : l = rEx := by omega
      subst hl
      refine lbL_unique tails x l hleft ?_ (by omega)
      by_cases hll : l < tails.length
      · exact Or.inr (hright l (Nat.le_refl l) hll)
      · exact Or.inl (by omega)

/-- The wrapper `bsLoop` with its actual fuel `rEx - l`. -/
theorem bsLoop_eq_lbL (tails : List Int) (x : Int) (hs : tails.Pairwise (· < ·))
    (hright : ∀ k, tails.length ≤ k → k < tails.length → x ≤ tails.getD k 0) :
    bsLoop tails x 0 tails.length = lbL tails x := by
  exact bsGo_eq_lbL tails x hs (tails.length - 0) 0 tails.length (by omega) (by omega)
    (Nat.le_refl _) (fun k hk => absurd hk (Nat.not_lt_zero k)) hright

/-! ### The patience-sorting invariant for `getSequence`'s first loop

After processing the (sentinel-free) prefix `c`, the state satisfies:
`tails` is strictly sorted; each element's recorded pile index is in range;
`tails[q]` is the value of the *most recent* element placed on pile `q`
(`lastTop`); `tails[pos[i]]` never exceeds the value of element `i`
(`decInv`: pile tops only decrease over time); every element on pile `q+1`
has, strictly before it, a nearest element on pile `q` with a smaller value
(`predChain`); and along any value-increasing pair of elements the pile
indices strictly increase (`posOrder`). -/

structure LisInv (c : List Int) (s : LisState) : Prop where
  lenEq : s.pos.length = c.length
  sorted : s.tails.Pairwise (· < ·)
  posBound : ∀ i, i < c.length → s.pos.getD i 0 < s.tails.length
  lastTop : ∀ q, q < s.tails.length → ∃ i, i < c.length ∧ s.pos.getD i 0 = q ∧
      c.getD i 0 = s.tails.getD q 0 ∧ ∀ k, i < k → k < c.length → s.pos.getD k 0 ≠ q
  decInv : ∀ i, i < c.length → s.tails.getD (s.pos.getD i 0) 0 ≤ c.getD i 0
  predChain : ∀ i q, i < c.length → s.pos.getD i 0 = q + 1 →
      ∃ j, j < i ∧ s.pos.getD j 0 = q ∧ (∀ k, j < k → k < i → s.pos.getD k 0 ≠ q) ∧
        c.getD j 0 < c.getD i 0
  posOrder : ∀ i j, i < j → j < c.length → c.getD i 0 < c.getD j 0 →
      s.pos.getD i 0 < s.pos.getD j 0

theorem lisInv_nil : LisInv [] ⟨[], []⟩ := by
  refine ⟨rfl, List.Pairwise.nil, ?_, ?_, ?_, ?_, ?_⟩ <;>
    intro i <;> intros <;> simp_all

theorem pushCond_true {tails : List Int} {x : Int} (h : pushCond tails x = true) :
    0 < tails.length ∧ tails.getD (tails.length - 1) 0 < x := by
  unfold pushCond at h
  cases hl : tails.getLast? with
  | none => rw [hl] at h; cases h
  | some last =>
    rw [hl] at h
    have hlt : last < x := of_decide_eq_true h
    have hne : tails.length ≠ 0 := by
      intro he
      rw [List.length_eq_zero.mp he] at hl
      cases hl
    have hpos : 0 < tails.length := Nat.pos_of_ne_zero hne
    have hget : tails.get? (tails.length - 1) = some last := by
      rw [← List.getLast?_eq_get?]
      exact hl
    obtain ⟨hh, he⟩ := List.get?_eq_some.mp hget
    refine ⟨hpos, ?_⟩
    rw [List.getD_eq_getElem _ _ (by omega), ← List.get_eq_getElem tails ⟨_, hh⟩, he]
    exact hlt

theorem pushCond_false {tails : List Int} {x : Int} (h : pushCond tails x = false)
    (hlen : 0 < tails.length) : x ≤ tails.getD (tails.length - 1) 0 := by
  unfold pushCond at h
  cases hl : tails.getLast? with
  | none =>
    rw [List.getLast?_eq_none_iff] at hl
    rw [hl] at hlen
    simp at hlen
  | some last =>
    rw [hl] at h
    have hxle : ¬ last < x := of_decide_eq_false h
    have hget : tails.get? (tails.length - 1) = some last := by
      rw [← List.getLast?_eq_get?]
      exact hl
    obtain ⟨hh, he⟩ := List.get?_eq_some.mp hget
    rw [List.getD_eq_getElem _ _ (by omega), ← List.get_eq_getElem tails ⟨_, hh⟩, he]
    omega

/-- Every member of a strictly sorted list is at most its last entry. -/
theorem sorted_mem_le_last {tails : List Int} (hs : tails.Pairwise (· < ·))
    {a : Int} (ha : a ∈ tails) : a ≤ tails.getD (tails.length - 1) 0 := by
  obtain ⟨k, hk, rfl⟩ := List.mem_iff_getElem.mp ha
  rw [← List.getD_eq_getElem tails 0 hk]
  rcases Nat.lt_or_ge k (tails.length - 1) with h | h
  · exact Int.le_of_lt (pairwise_getD_lt tails hs k (tails.length - 1) h (by omega))
  · have : k = tails.length - 1 := by omega
    rw [this]

theorem lisStep_push_inv {c : List Int} {s : LisState} (inv : LisInv c s) {x : Int}
    (hpc : pushCond s.tails x = true) :
    LisInv (c ++ [x]) ⟨s.tails ++ [x], s.pos ++ [s.tails.length]⟩ := by
  obtain ⟨hL, hlast⟩ := pushCond_true hpc
  set n := c.length with hn
  set L := s.tails.length with hLdef
  have hposlen : s.pos.length = n := inv.lenEq
  have getD_pos_lt : ∀ i, i < n → (s.pos ++ [L]).getD i 0 = s.pos.getD i 0 := by
    intro i hi
    exact getD_snoc_lt s.pos L 0 i (by omega)
  have getD_pos_n : (s.pos ++ [L]).getD n 0 = L := by
    rw [← hposlen]
    exact getD_snoc_len s.pos L 0
  have getD_c_lt : ∀ i, i < n → (c ++ [x]).getD i 0 = c.getD i 0 := by
    intro i hi
    exact getD_snoc_lt c x 0 i hi
  have getD_c_n : (c ++ [x]).getD n 0 = x := getD_snoc_len c x 0
  have getD_t_lt : ∀ q, q < L → (s.tails ++ [x]).getD q 0 = s.tails.getD q 0 := by
    intro q hq
    exact getD_snoc_lt s.tails x 0 q hq
  have getD_t_L : (s.tails ++ [x]).getD L 0 = x := getD_snoc_len s.tails x 0
  refine ⟨?_, ?_, ?_, ?_, ?_, ?_, ?_⟩
  · simp [hposlen]
  · rw [List.pairwise_append]
    refine ⟨inv.sorted, List.pairwise_singleton _ _, ?_⟩
    intro a ha b hb
    rw [List.mem_singleton.mp hb]
    exact Int.lt_of_le_of_lt (sorted_mem_le_last inv.sorted ha) hlast
  · intro i hi
    simp only [List.length_append, List.length_singleton] at hi ⊢
    rcases Nat.lt_or_ge i n with h | h
    · rw [getD_pos_lt i h]
      exact Nat.lt_succ_of_lt (inv.posBound i h)
    · have hieq : i = n := by omega
      rw [hieq, getD_pos_n]
      omega
  · intro q hq
    simp only [List.length_append, List.length_singleton] at hq
    rcases Nat.lt_or_ge q L with h | h
    · obtain ⟨i, hi, hpos, hval, hlater⟩ := inv.lastTop q h
      refine ⟨i, by simpa using Nat.lt_succ_of_lt hi, ?_, ?_, ?_⟩
      · rw [getD_pos_lt i hi]; exact hpos
      · rw [getD_c_lt i hi, getD_t_lt q h]; exact hval
      · intro k hik hk
        simp only [List.length_append, List.length_singleton] at hk
        rcases Nat.lt_or_ge k n with hkn | hkn
        · rw [getD_pos_lt k hkn]; exact hlater k hik hkn
        · have : k = n := by omega
          rw [this, getD_pos_n]
          omega
    · have : q = L := by omega
      subst this
      refine ⟨n, by simp, getD_pos_n, by rw [getD_c_n, getD_t_L], ?_⟩
      intro k hk hk2
      simp only [List.length_append, List.length_singleton] at hk2
      omega
  · intro i hi
    simp only [List.length_append, List.length_singleton] at hi
    rcases Nat.lt_or_ge i n with h | h
    · rw [getD_pos_lt i h, getD_c_lt i h, getD_t_lt _ (inv.posBound i h)]
      exact inv.decInv i h
    · have : i = n := by omega
      rw [this, getD_pos_n, getD_c_n, getD_t_L]
  · intro i q hi hq
    simp only [List.length_append, List.length_singleton] at hi
    rcases Nat.lt_or_ge i n with h | h
    · rw [getD_pos_lt i h] at hq
      obtain ⟨j, hji, hjpos, hgap, hjval⟩ := inv.predChain i q h hq
      refine ⟨j, hji, ?_, ?_, ?_⟩
      · rw [getD_pos_lt j (by omega)]; exact hjpos
      · intro k hk1 hk2
        rw [getD_pos_lt k (by omega)]
        exact hgap k hk1 hk2
      · rw [getD_c_lt j (by omega), getD_c_lt i h]
        exact hjval
    · have hin : i = n := by omega
      subst hin
      rw [getD_pos_n] at hq
      obtain ⟨j, hj, hjpos, hjval, hjlater⟩ := inv.lastTop q (by omega)
      refine ⟨j, by omega, ?_, ?_, ?_⟩
      · rw [getD_pos_lt j hj]; exact hjpos
      · intro k hk1 hk2
        rw [getD_pos_lt k (by omega)]
        exact hjlater k hk1 (by omega)
      · rw [getD_c_lt j hj, getD_c_n, hjval]
        have : q = L - 1 := by omega
        rw [this]
        exact hlast
  · intro i j hij hj hval
    simp only [List.length_append, List.length_singleton] at hj
    rcases Nat.lt_or_ge j n with h | h
    · rw [getD_pos_lt i (by omega), getD_pos_lt j h]
      rw [getD_c_lt i (by omega), getD_c_lt j h] at hval
      exact inv.posOrder i j hij h hval
    · have : j = n := by omega
      subst this
      rw [getD_pos_lt i (by omega), getD_pos_n]
      exact inv.posBound i (by omega)

theorem lisStep_lb_inv {c : List Int} {s : LisState} (inv : LisInv c s) {x : Int}
    (hpc : pushCond s.tails x = false) :
    LisInv (c ++ [x]) ⟨arraySet s.tails (bsLoop s.tails x 0 s.tails.length) x,
      s.pos ++ [bsLoop s.tails x 0 s.tails.length]⟩ := by
  have hlb : bsLoop s.tails x 0 s.tails.length = lbL s.tails x :=
    bsLoop_eq_lbL s.tails x inv.sorted (fun k hk1 hk2 => by omega)
  by_cases hL0 : s.tails.length = 0
  · -- the `result` array is still empty: the element becomes its sole entry
    have htnil : s.tails = [] := List.length_eq_zero.mp hL0
    have hcnil : c = [] := by
      cases hc : c with
      | nil => rfl
      | cons a rest =>
        have := inv.posBound 0 (by rw [hc]; simp)
        rw [hL0] at this
        omega
    have hpnil : s.pos = [] := List.length_eq_zero.mp (by rw [inv.lenEq, hcnil]; rfl)
    subst hcnil
    rw [htnil, hpnil]
    show LisInv [x] ⟨[x], [0]⟩
    refine ⟨rfl, List.pairwise_singleton _ _, ?_, ?_, ?_, ?_, ?_⟩
    · intro i hi
      simp only [List.length_singleton] at hi ⊢
      interval_cases i
      simp [List.getD_cons_zero]
    · intro q hq
      simp only [List.length_singleton] at hq
      interval_cases q
      exact ⟨0, by simp, by simp, by simp, fun k h1 h2 => by simp at h2; omega⟩
    · intro i hi
      simp only [List.length_singleton] at hi
      interval_cases i
      simp
    · intro i q hi hposq
      simp only [List.length_singleton] at hi
      interval_cases i
      simp [List.getD_cons_zero] at hposq
    · intro i j hij hj _
      simp only [List.length_singleton] at hj
      omega
  · -- nonempty `result`: the element replaces the leftmost entry `≥ x`
    have hL : 0 < s.tails.length := Nat.pos_of_ne_zero hL0
    have hxle : x ≤ s.tails.getD (s.tails.length - 1) 0 := pushCond_false hpc hL
    set n := c.length with hn
    set L := s.tails.length with hLdef
    set l := lbL s.tails x with hldef
    have hlL : l < L := by
      rcases Nat.lt_or_ge l L with h | h
      · exact h
      · have hle := lbL_le_length s.tails x
        have hleq : l = L := by omega
        have := lbL_lt s.tails x (L - 1) (by omega)
        omega
    have Hlt : ∀ k, k < l → s.tails.getD k 0 < x := fun k hk => lbL_lt s.tails x k hk
    have Hge : x ≤ s.tails.getD l 0 := lbL_ge s.tails x hlL
    have harr : arraySet s.tails (bsLoop s.tails x 0 s.tails.length) x
        = s.tails.set l x := by
      rw [hlb]
      unfold arraySet
      rw [if_pos hlL]
    rw [harr, hlb]
    have hposlen : s.pos.length = n := inv.lenEq
    have hsetlen : (s.tails.set l x).length = L := by rw [List.length_set]
    have getD_pos_lt : ∀ i, i < n → (s.pos ++ [l]).getD i 0 = s.pos.getD i 0 := by
      intro i hi
      exact getD_snoc_lt s.pos l 0 i (by omega)
    have getD_pos_n : (s.pos ++ [l]).getD n 0 = l := by
      rw [← hposlen]
      exact getD_snoc_len s.pos l 0
    have getD_c_lt : ∀ i, i < n → (c ++ [x]).getD i 0 = c.getD i 0 := by
      intro i hi
      exact getD_snoc_lt c x 0 i hi
    have getD_c_n : (c ++ [x]).getD n 0 = x := getD_snoc_len c x 0
    have getD_t_l : (s.tails.set l x).getD l 0 = x := getD_set_self s.tails l x hlL
    have getD_t_ne : ∀ q, q ≠ l → (s.tails.set l x).getD q 0 = s.tails.getD q 0 := by
      intro q hq
      exact getD_set_ne s.tails l q x (fun h => hq h.symm)
    have hmono : ∀ q, l ≤ q → q < L → x ≤ s.tails.getD q 0 := by
      intro q hq1 hq2
      rcases Nat.eq_or_lt_of_le hq1 with he | hlt
      · rw [← he]; exact Hge
      · exact Int.le_of_lt (Int.lt_of_le_of_lt Hge (pairwise_getD_lt s.tails inv.sorted l q hlt hq2))
    refine ⟨?_, ?_, ?_, ?_, ?_, ?_, ?_⟩
    · simp [hposlen]
    · rw [List.pairwise_iff_getElem]
      intro i j hi hj hij
      rw [List.length_set] at hi hj
      have hgi : (s.tails.set l x)[i] = (s.tails.set l x).getD i 0 :=
        (List.getD_eq_getElem _ _ (by rw [List.length_set]; exact hi)).symm
      have hgj : (s.tails.set l x)[j] = (s.tails.set l x).getD j 0 :=
        (List.getD_eq_getElem _ _ (by rw [List.length_set]; exact hj)).symm
      rw [hgi, hgj]
      by_cases hil : i = l
      · rw [hil, getD_t_l, getD_t_ne j (by omega)]
        exact Int.lt_of_le_of_lt Hge (pairwise_getD_lt s.tails inv.sorted l j (by omega) hj)
      · by_cases hjl : j = l
        · rw [hjl, getD_t_l, getD_t_ne i hil]
          exact Hlt i (by omega)
        · rw [getD_t_ne i hil, getD_t_ne j hjl]
          exact pairwise_getD_lt s.tails inv.sorted i j hij hj
    · intro i hi
      simp only [List.length_append, List.length_singleton] at hi
      rw [hsetlen]
      rcases Nat.lt_or_ge i n with h | h
      · rw [getD_pos_lt i h]
        exact inv.posBound i h
      · have hieq : i = n := by omega
        rw [hieq, getD_pos_n]
        exact hlL
    · intro q hq
      rw [hsetlen] at hq
      by_cases hql : q = l
      · subst hql
        refine ⟨n, by simp, getD_pos_n, by rw [getD_c_n, getD_t_l], ?_⟩
        intro k hk hk2
        simp only [List.length_append, List.length_singleton] at hk2
        omega
      · obtain ⟨i, hi, hpos, hval, hlater⟩ := inv.lastTop q hq
        refine ⟨i, by simp only [List.length_append, List.length_singleton]; omega, ?_, ?_, ?_⟩
        · rw [getD_pos_lt i hi]; exact hpos
        · rw [getD_c_lt i hi, getD_t_ne q hql]; exact hval
        · intro k hik hk
          simp only [List.length_append, List.length_singleton] at hk
          rcases Nat.lt_or_ge k n with hkn | hkn
          · rw [getD_pos_lt k hkn]; exact hlater k hik hkn
          · have : k = n := by omega
            rw [this, getD_pos_n]
            exact fun he => hql he.symm
    · intro i hi
      simp only [List.length_append, List.length_singleton] at hi
      rcases Nat.lt_or_ge i n with h | h
      · rw [getD_pos_lt i h, getD_c_lt i h]
        by_cases hpl : s.pos.getD i 0 = l
        · rw [hpl, getD_t_l]
          have h1 := inv.decInv i h
          rw [hpl] at h1
          exact Int.le_trans Hge h1
        · rw [getD_t_ne _ hpl]
          exact inv.decInv i h
      · have hieq : i = n := by omega
        rw [hieq, getD_pos_n, getD_c_n, getD_t_l]
    · intro i q hi hq
      simp only [List.length_append, List.length_singleton] at hi
      rcases Nat.lt_or_ge i n with h | h
      · rw [getD_pos_lt i h] at hq
        obtain ⟨j, hji, hjpos, hgap, hjval⟩ := inv.predChain i q h hq
        refine ⟨j, hji, ?_, ?_, ?_⟩
        · rw [getD_pos_lt j (by omega)]; exact hjpos
        · intro k hk1 hk2
          rw [getD_pos_lt k (by omega)]
          exact hgap k hk1 hk2
        · rw [getD_c_lt j (by omega), getD_c_lt i h]
          exact hjval
      · have hieq : i = n := by omega
        subst hieq
        rw [getD_pos_n] at hq
        obtain ⟨j, hj, hjpos, hjval, hjlater⟩ := inv.lastTop q (by omega)
        refine ⟨j, by omega, ?_, ?_, ?_⟩
        · rw [getD_pos_lt j hj]; exact hjpos
        · intro k hk1 hk2
          rw [getD_pos_lt k (by omega)]
          exact hjlater k hk1 (by omega)
        · rw [getD_c_lt j hj, getD_c_n, hjval]
          have : q = l - 1 ∧ 1 ≤ l := by omega
          rw [this.1]
          exact Hlt (l - 1) (by omega)
    · intro i j hij hj hval
      simp only [List.length_append, List.length_singleton] at hj
      rcases Nat.lt_or_ge j n with h | h
      · rw [getD_pos_lt i (by omega), getD_pos_lt j h]
        rw [getD_c_lt i (by omega), getD_c_lt j h] at hval
        exact inv.posOrder i j hij h hval
      · have hjeq : j = n := by omega
        subst hjeq
        rw [getD_pos_lt i (by omega), getD_pos_n]
        rw [getD_c_lt i (by omega), getD_c_n] at hval
        by_contra hcon
        have hge2 : l ≤ s.pos.getD i 0 := by omega
        have h1 : x ≤ s.tails.getD (s.pos.getD i 0) 0 :=
          hmono _ hge2 (inv.posBound i (by omega))
        have h2 := inv.decInv i (by omega)
        omega

/-- The combined step preservation: processing one non-sentinel element
keeps the invariant. -/
theorem lisStep_inv {c : List Int} {s : LisState} (inv : LisInv c s) {x : Int}
    (hx : x ≠ -1) : LisInv (c ++ [x]) (lisStep s x) := by
  unfold lisStep
  rw [if_neg hx]
  by_cases hpc : pushCond s.tails x = true
  · rw [if_pos hpc]
    exact lisStep_push_inv inv hpc
  · rw [if_neg hpc]
    exact lisStep_lb_inv inv (Bool.not_eq_true _ ▸ hpc)

theorem lisStep_sentinel (s : LisState) : lisStep s (-1) = s := by
  unfold lisStep
  simp

/-- Skipping `-1` entries is the same as first deleting them. -/
theorem foldl_lisStep_filter (nums : List Int) (s : LisState) :
    nums.foldl lisStep s = (nums.filter (fun v => v ≠ -1)).foldl lisStep s := by
  induction nums generalizing s with
  | nil => rfl
  | cons a rest ih =>
    by_cases ha : a = -1
    · subst ha
      have hfc : List.filter (fun v => decide (v ≠ -1)) ((-1) :: rest)
          = List.filter (fun v => decide (v ≠ -1)) rest := by
        simp [List.filter_cons]
      rw [List.foldl_cons, lisStep_sentinel, hfc]
      exact ih s
    · have hfc : List.filter (fun v => decide (v ≠ -1)) (a :: rest)
          = a :: List.filter (fun v => decide (v ≠ -1)) rest := by
        simp [List.filter_cons, ha]
      rw [List.foldl_cons, hfc, List.foldl_cons]
      exact ih (lisStep s a)

theorem foldl_lisStep_inv (c : List Int) (hc : ∀ v ∈ c, v ≠ -1) :
    LisInv c (c.foldl lisStep ⟨[], []⟩) := by
  induction c using List.reverseRecOn with
  | nil => exact lisInv_nil
  | append_singleton c x ih =>
    rw [List.foldl_append, List.foldl_cons, List.foldl_nil]
    exact lisStep_inv (ih (fun v hv => hc v (List.mem_append_left _ hv)))
      (hc x (List.mem_append_right _ (List.mem_singleton.mpr rfl)))

/-- Postcondition of the backtrack loop: the result selects, for each pile
`q`, an element index `jq` on pile `q`, and consecutive selections strictly
increase in both index and value. -/
def BTPost (c : List Int) (P : List Nat) (res : List Int) (L n : Nat) : Prop :=
  res.length = L ∧
  (∀ q, q < L → ∃ jq : Nat, res.getD q 0 = (jq : Int) ∧ jq < n ∧ P.getD jq 0 = q) ∧
  (∀ q, q + 1 < L →
    res.getD q 0 < res.getD (q + 1) 0 ∧
    c.getD (res.getD q 0).toNat 0 < c.getD (res.getD (q + 1) 0).toNat 0)

theorem btGo_spec (c : List Int) (s : LisState) (inv : LisInv c s) :
    ∀ (iN : Nat) (cur : Int) (res : List Int),
      res.length = s.tails.length →
      iN ≤ s.pos.length →
      cur < (s.tails.length : Int) →
      (0 ≤ cur → ∃ j : Nat, j < iN ∧ s.pos.getD j 0 = cur.toNat) →
      (∀ q : Nat, cur < (q : Int) → q < s.tails.length →
        ∃ jq : Nat, res.getD q 0 = (jq : Int) ∧ jq < s.pos.length ∧ iN ≤ jq ∧
          s.pos.getD jq 0 = q) →
      (∀ q : Nat, cur < (q : Int) → q + 1 < s.tails.length →
        res.getD q 0 < res.getD (q + 1) 0 ∧
        c.getD (res.getD q 0).toNat 0 < c.getD (res.getD (q + 1) 0).toNat 0) →
      (0 ≤ cur → ∀ k : Nat, iN ≤ k →
        (if cur + 1 < (s.tails.length : Int) then (k : Int) < res.getD (cur + 1).toNat 0
         else k < s.pos.length) →
        s.pos.getD k 0 ≠ cur.toNat) →
      BTPost c s.pos (btGo s.pos iN res cur) s.tails.length s.pos.length := by
  have hn : s.pos.length = c.length := inv.lenEq
  intro iN
  induction iN with
  | zero =>
    intro cur res hlen _ _ hfind hwritten hchain _
    have hcur : cur < 0 := by
      by_contra hge
      obtain ⟨j, hj, _⟩ := hfind (by omega)
      omega
    show BTPost c s.pos res s.tails.length s.pos.length
    refine ⟨hlen, ?_, ?_⟩
    · intro q hq
      obtain ⟨jq, h1, h2, _, h4⟩ := hwritten q (by omega) hq
      exact ⟨jq, h1, h2, h4⟩
    · intro q hq
      exact hchain q (by omega) hq
  | succ iN ih =>
    intro cur res hlen hiN hcurL hfind hwritten hchain hgap
    show BTPost c s.pos (btGo s.pos (iN + 1) res cur) s.tails.length s.pos.length
    unfold btGo
    by_cases hcur : 0 ≤ cur
    · rw [if_pos hcur]
      have hiNn : iN < s.pos.length := by omega
      by_cases hsel : (s.pos.getD iN 0 : Int) = cur
      · rw [if_pos hsel]
        have hcurNat : cur.toNat < s.tails.length := by omega
        have hposiN : s.pos.getD iN 0 = cur.toNat := by omega
        refine ih (cur - 1) (res.set cur.toNat (iN : Int)) (by rw [List.length_set]; exact hlen)
          (by omega) (by omega) ?_ ?_ ?_ ?_
        · -- findable for cur - 1, via predChain at the element just selected
          intro hge1
          have hpc : s.pos.getD iN 0 = (cur - 1).toNat + 1 := by omega
          obtain ⟨j, hj, hjpos, _, _⟩ := inv.predChain iN ((cur - 1).toNat) (by omega) hpc
          exact ⟨j, hj, hjpos⟩
        · -- written entries above cur - 1
          intro q hq hqL
          by_cases hqe : q = cur.toNat
          · subst hqe
            refine ⟨iN, ?_, by omega, Nat.le_refl iN, hposiN⟩
            rw [getD_set_self res cur.toNat (iN : Int) (by omega)]
          · have hq2 : cur < (q : Int) := by omega
            obtain ⟨jq, h1, h2, h3, h4⟩ := hwritten q hq2 hqL
            refine ⟨jq, ?_, h2, by omega, h4⟩
            rw [getD_set_ne res cur.toNat q (iN : Int) (fun h => hqe h.symm)]
            exact h1
        · -- the chain property including the newly selected element
          intro q hq hqL
          by_cases hqe : q = cur.toNat
          · subst hqe
            obtain ⟨jq, h1, h2, h3, h4⟩ := hwritten (cur.toNat + 1) (by omega) hqL
            have hset1 : (res.set cur.toNat (iN : Int)).getD cur.toNat 0 = (iN : Int) :=
              getD_set_self res cur.toNat (iN : Int) (by omega)
            have hset2 : (res.set cur.toNat (iN : Int)).getD (cur.toNat + 1) 0
                = res.getD (cur.toNat + 1) 0 :=
              getD_set_ne res cur.toNat (cur.toNat + 1) (iN : Int) (by omega)
            rw [hset1, hset2, h1]
            constructor
            · exact_mod_cast by omega
            · -- value chain: iN is the nearest pile-cur element left of jq
              have hpcq : s.pos.getD jq 0 = cur.toNat + 1 := h4
              obtain ⟨jstar, hj1, hj2, hj3, hj4⟩ := inv.predChain jq cur.toNat (by omega) hpcq
              have hjeq : jstar = iN := by
                rcases Nat.lt_trichotomy jstar iN with hlt | heq | hgt
                · exact absurd hposiN (hj3 iN hlt (by omega))
                · exact heq
                · refine absurd hj2 (hgap hcur jstar (by omega) ?_)
                  rw [if_pos (by omega)]
                  have hidx : (cur + 1).toNat = cur.toNat + 1 := by omega
                  rw [hidx, h1]
                  exact_mod_cast hj1
              rw [← hjeq]
              simpa using hj4
          · have hq2 : cur < (q : Int) := by omega
            have hq3 : cur < (q : Int) + 1 := by omega
            obtain ⟨hc1, hc2⟩ := hchain q hq2 hqL
            have hs1 : (res.set cur.toNat (iN : Int)).getD q 0 = res.getD q 0 :=
              getD_set_ne res cur.toNat q (iN : Int) (fun h => hqe h.symm)
            have hs2 : (res.set cur.toNat (iN : Int)).getD (q + 1) 0 = res.getD (q + 1) 0 :=
              getD_set_ne res cur.toNat (q + 1) (iN : Int) (by omega)
            rw [hs1, hs2]
            exact ⟨hc1, hc2⟩
        · -- gap for cur - 1: empty interval between iN - 1 and the new selection
          intro hge1 k hk hbound
          have hcc : cur - 1 + 1 = cur := by omega
          rw [if_pos (by omega), hcc] at hbound
          rw [getD_set_self res cur.toNat (iN : Int) (by omega)] at hbound
          omega
      · rw [if_neg hsel]
        refine ih cur res hlen (by omega) hcurL ?_ ?_ hchain ?_
        · intro hge
          obtain ⟨j, hj, hjpos⟩ := hfind hge
          refine ⟨j, ?_, hjpos⟩
          rcases Nat.lt_or_ge j iN with h | h
          · exact h
          · have hjiN : j = iN := by omega
            rw [hjiN] at hjpos
            exact absurd (by rw [hjpos]; omega) hsel
        · intro q hq hqL
          obtain ⟨jq, h1, h2, h3, h4⟩ := hwritten q hq hqL
          exact ⟨jq, h1, h2, by omega, h4⟩
        · intro hge k hk hbound
          rcases Nat.lt_or_ge k (iN + 1) with h | h
          · have : k = iN := by omega
            subst this
            intro hcon
            exact hsel (by omega)
          · exact hgap hge k h hbound
    · rw [if_neg hcur]
      show BTPost c s.pos res s.tails.length s.pos.length
      refine ⟨hlen, ?_, ?_⟩
      · intro q hq
        obtain ⟨jq, h1, h2, _, h4⟩ := hwritten q (by omega) hq
        exact ⟨jq, h1, h2, h4⟩
      · intro q hq
        exact hchain q (by omega) hq

/-- The length of a longest strictly-increasing subsequence of `c`: the
maximum length over all strictly increasing sublists. -/
def lisLength (c : List Int) : Nat :=
  ((c.sublists.filter (fun t => decide (t.Pairwise (· < ·)))).map List.length).foldl max 0

theorem le_lisLength {c t : List Int} (hsub : List.Sublist t c)
    (hp : t.Pairwise (· < ·)) : t.length ≤ lisLength c := by
  have hmem : t ∈ c.sublists := List.mem_sublists.mpr hsub
  have hfil : t ∈ c.sublists.filter (fun t => decide (t.Pairwise (· < ·))) :=
    List.mem_filter.mpr ⟨hmem, by simpa using hp⟩
  exact (mem_le_foldl_max _ 0).1 _ (List.mem_map_of_mem List.length hfil)

theorem lisLength_le {c : List Int} {B : Nat}
    (h : ∀ t, List.Sublist t c → t.Pairwise (· < ·) → t.length ≤ B) :
    lisLength c ≤ B := by
  refine foldl_max_le _ 0 B ?_ (Nat.zero_le B)
  intro x hx
  obtain ⟨t, ht, rfl⟩ := List.mem_map.mp hx
  obtain ⟨h1, h2⟩ := List.mem_filter.mp ht
  exact h t (List.mem_sublists.mp h1) (by simpa using h2)

/-- Any strictly increasing sublist of the processed sequence is at most as
long as the pile array: pile indices strictly increase along it. -/
theorem chain_length_le_tails {c : List Int} {s : LisState} (inv : LisInv c s)
    (t : List Int) (hsub : List.Sublist t c) (hp : t.Pairwise (· < ·)) :
    t.length ≤ s.tails.length := by
  obtain ⟨idxs, hpi, hbi, rfl⟩ := sublist_exists_index_list hsub
  have hval : idxs.Pairwise (fun a b => c.getD a 0 < c.getD b 0) := List.pairwise_map.mp hp
  have hboth : idxs.Pairwise (fun a b => a < b ∧ c.getD a 0 < c.getD b 0) := hpi.and hval
  have hposmap : (idxs.map (fun i => s.pos.getD i 0)).Pairwise (· < ·) := by
    rw [List.pairwise_map]
    refine hboth.imp_of_mem ?_
    intro a b _ hb hab
    exact inv.posOrder a b hab.1 (hbi b hb) hab.2
  have hbound : ∀ x ∈ idxs.map (fun i => s.pos.getD i 0), x < s.tails.length := by
    intro x hx
    obtain ⟨i, hi, rfl⟩ := List.mem_map.mp hx
    exact inv.posBound i (hbi i hi)
  have hle := pairwise_lt_length_le _ _ hposmap hbound
  simpa using hle

theorem map_toNat_cast (l : List Int) (h : ∀ y ∈ l, 0 ≤ y) :
    (l.map Int.toNat).map (fun i => Int.ofNat i) = l := by
  induction l with
  | nil => rfl
  | cons a rest ih =>
    simp only [List.map_cons]
    have hcast : Int.ofNat a.toNat = a := by
      rw [Int.ofNat_eq_natCast]
      have := h a (List.mem_cons_self a rest)
      omega
    rw [hcast, ih (fun y hy => h y (List.mem_cons_of_mem a hy))]

theorem getD_map_toNat (l : List Int) (q : Nat) (hq : q < l.length) :
    (l.map Int.toNat).getD q 0 = (l.getD q 0).toNat := by
  rw [List.getD_eq_getElem _ _ (by simpa using hq), List.getD_eq_getElem _ _ hq]
  simp

theorem getD_map_value (c : List Int) (idxs : List Nat) (q : Nat) (hq : q < idxs.length) :
    (idxs.map (fun i => c.getD i 0)).getD q 0 = c.getD (idxs.getD q 0) 0 := by
  rw [List.getD_eq_getElem _ _ (by simpa using hq), List.getD_eq_getElem idxs _ hq]
  simp

/-- C3 as amended: `getSequence` returns (in increasing order) a set of
indices into the *sentinel-compacted* sequence `nums.filter (· ≠ -1)` —
not into the original array — that forms a longest strictly-increasing
subsequence of the non-sentinel values: the indices are strictly
increasing and in range, the values at them are strictly increasing, and
no strictly increasing subsequence is longer. -/
theorem getSequence_lis (nums : List Int) :
    ∃ idxs : List Nat,
      getSequence nums = idxs.map (fun i => Int.ofNat i) ∧
      idxs.Pairwise (· < ·) ∧
      (∀ i ∈ idxs, i < (nums.filter (fun v => v ≠ -1)).length) ∧
      (idxs.map (fun i => (nums.filter (fun v => v ≠ -1)).getD i 0)).Pairwise (· < ·) ∧
      idxs.length = lisLength (nums.filter (fun v => v ≠ -1)) := by
  set c := nums.filter (fun v => v ≠ -1) with hc
  have hcs : ∀ v ∈ c, v ≠ -1 := by
    intro v hv
    rw [hc] at hv
    have := List.mem_filter.mp hv
    simpa using this.2
  set s := c.foldl lisStep ⟨[], []⟩ with hs
  have inv : LisInv c s := foldl_lisStep_inv c hcs
  have hn : s.pos.length = c.length := inv.lenEq
  have hgseq : getSequence nums
      = btGo s.pos s.pos.length s.tails ((s.tails.length : Int) - 1) := by
    unfold getSequence
    rw [foldl_lisStep_filter nums ⟨[], []⟩]
  have hpost : BTPost c s.pos (btGo s.pos s.pos.length s.tails ((s.tails.length : Int) - 1))
      s.tails.length s.pos.length := by
    refine btGo_spec c s inv s.pos.length ((s.tails.length : Int) - 1) s.tails rfl
      (Nat.le_refl _) (by omega) ?_ ?_ ?_ ?_
    · intro hge
      obtain ⟨i, hi, hpos, _, _⟩ := inv.lastTop (s.tails.length - 1) (by omega)
      refine ⟨i, by omega, ?_⟩
      rw [hpos]
      omega
    · intro q hq hqL
      exact absurd hqL (by omega)
    · intro q hq hqL
      exact absurd hqL (by omega)
    · intro hge k hk hbound
      rw [if_neg (by omega)] at hbound
      omega
  rw [← hgseq] at hpost
  obtain ⟨hreslen, hsel, hchain⟩ := hpost
  set r := getSequence nums with hr
  have hnonnegD : ∀ q, q < s.tails.length → 0 ≤ r.getD q 0 := by
    intro q hq
    obtain ⟨jq, h1, _, _⟩ := hsel q hq
    rw [h1]
    exact Int.natCast_nonneg jq
  have hnonneg : ∀ y ∈ r, 0 ≤ y := by
    intro y hy
    obtain ⟨q, hq, rfl⟩ := List.mem_iff_getElem.mp hy
    rw [← List.getD_eq_getElem r 0 hq]
    exact hnonnegD q (by omega)
  have hrpair : r.Pairwise (· < ·) := by
    refine pairwise_of_consecutive_getD r ?_
    intro q hq
    exact (hchain q (by omega)).1
  refine ⟨r.map Int.toNat, ?_, ?_, ?_, ?_, ?_⟩
  · exact (map_toNat_cast r hnonneg).symm
  · rw [List.pairwise_map]
    refine hrpair.imp_of_mem ?_
    intro a b ha _ hab
    have := hnonneg a ha
    omega
  · intro i hi
    obtain ⟨y, hy, rfl⟩ := List.mem_map.mp hi
    obtain ⟨q, hq, hyq⟩ := List.mem_iff_getElem.mp hy
    obtain ⟨jq, h1, h2, _⟩ := hsel q (by omega)
    rw [← hyq, ← List.getD_eq_getElem r 0 hq, h1]
    simpa [hn] using h2
  · refine pairwise_of_consecutive_getD _ ?_
    intro q hq
    simp only [List.length_map] at hq
    have hq' : q + 1 < s.tails.length := by
      rw [← hreslen]
      simpa using hq
    have hm1 := getD_map_value c (r.map Int.toNat) q (by simpa using Nat.lt_of_succ_lt hq)
    have hm2 := getD_map_value c (r.map Int.toNat) (q + 1) (by simpa using hq)
    rw [hm1, hm2, getD_map_toNat r q (by omega), getD_map_toNat r (q + 1) (by omega)]
    exact (hchain q hq').2
  · have hLle : lisLength c ≤ s.tails.length :=
      lisLength_le (fun t hsub hp => chain_length_le_tails inv t hsub hp)
    have hge : s.tails.length ≤ lisLength c := by
      have hidxpair : (r.map Int.toNat).Pairwise (· < ·) := by
        rw [List.pairwise_map]
        refine hrpair.imp_of_mem ?_
        intro a b ha _ hab
        have := hnonneg a ha
        omega
      have hidxbound : ∀ i ∈ r.map Int.toNat, i < c.length := by
        intro i hi
        obtain ⟨y, hy, rfl⟩ := List.mem_map.mp hi
        obtain ⟨q, hq, hyq⟩ := List.mem_iff_getElem.mp hy
        obtain ⟨jq, h1, h2, _⟩ := hsel q (by omega)
        rw [← hyq, ← List.getD_eq_getElem r 0 hq, h1]
        simpa [hn] using h2
      have hvalpair : ((r.map Int.toNat).map (fun i => c.getD i 0)).Pairwise (· < ·) := by
        refine pairwise_of_consecutive_getD _ ?_
        intro q hq
        simp only [List.length_map] at hq
        have hq' : q + 1 < s.tails.length := by
          rw [← hreslen]
          simpa using hq
        have hm1 := getD_map_value c (r.map Int.toNat) q (by simpa using Nat.lt_of_succ_lt hq)
        have hm2 := getD_map_value c (r.map Int.toNat) (q + 1) (by simpa using hq)
        rw [hm1, hm2, getD_map_toNat r q (by omega), getD_map_toNat r (q + 1) (by omega)]
        exact (hchain q hq').2
      have hsub : List.Sublist ((r.map Int.toNat).map (fun i => c.getD i 0)) c :=
        map_getD_sublist c (r.map Int.toNat) hidxpair hidxbound
      have := le_lisLength hsub hvalpair
      simpa [hreslen] using this
    simp only [List.length_map]
    omega

/-! ## Keyed children diff (`patchKeyedChildren`, src/unnamed/part_001 lines 667–779)

    let j = 0
    let oldNode = oldChildren[j], newNode = newChildren[j]
    let oldEnd = oldChildren.length - 1, newEnd = newChildren.length - 1
    while (oldNode.key === newNode?.key) { patch(...); j++; oldNode = oldChildren[j]; newNode = newChildren[j] }
    oldNode = oldChildren[oldEnd]; newNode = newChildren[newEnd]
    while (oldNode.key === newNode.key) { patch(...); oldEnd--; newEnd--; ... }
    if (j <= newEnd && j > oldEnd) { ...mount remainder... }
    else if (j > newEnd && j <= oldEnd) { ...unmount remainder... }
    else { ...middle region with key map, souce array, LIS moves... }

A child is a key plus a host-node identity (`id` stands for the vnode and
its `el`; anchors are `Option Nat`, `none` being JS `null`).  Host-tree
effects are recorded as an operation list.  The forward loop's condition
guards only `newNode` with optional chaining: evaluating it with
`oldChildren[j]` past the end of the old list dereferences `.key` of
`undefined` and throws (`JSRes.crash`); the backward loop guards neither
side, and `new Array(count)` throws for negative `count`.  Loops carry an
explicit iteration budget like the `getSequence` loops (`fuelOut` is kept
distinct from a genuine crash; every budget below strictly exceeds the
loop's possible trip count). -/

structure KChild where
  key : Nat
  id : Nat
deriving DecidableEq, Repr

inductive KOp where
  | patchOp (oldId newId : Nat)
  | mountOp (newId : Nat) (anchor : Option Nat)
  | unmountOp (oldId : Nat)
  | moveOp (id : Nat) (anchor : Option Nat)
deriving DecidableEq, Repr

inductive JSRes (α : Type) where
  | ok (val : α)
  | crash
  | fuelOut
deriving DecidableEq, Repr

/-- The forward same-key loop.  Evaluating the condition reads
`oldChildren[j].key` unguarded (crash when `j` is past the old list) and
`newChildren[j]?.key` guarded (`undefined` compares unequal to a key). -/
def fwdGo (old new : List KChild) : Nat → Nat → List KOp → JSRes (Nat × List KOp)
  | 0, _, _ => .fuelOut
  | fuel + 1, j, acc =>
    match old.get? j with
    | none => .crash
    | some o =>
      match new.get? j with
      | none => .ok (j, acc)
      | some n =>
        if o.key = n.key then fwdGo old new fuel (j + 1) (acc ++ [.patchOp o.id n.id])
        else .ok (j, acc)

/-- The backward same-key loop.  Its condition
`oldChildren[oldEnd].key === newChildren[newEnd].key` guards neither index,
so either pointer running off its list's front end crashes. -/
def bwdGo (old new : List KChild) : Nat → Int → Int → List KOp →
    JSRes (Int × Int × List KOp)
  | 0, _, _, _ => .fuelOut
  | fuel + 1, oldEnd, newEnd, acc =>
    match (if 0 ≤ oldEnd then old.get? oldEnd.toNat else none) with
    | none => .crash
    | some o =>
      match (if 0 ≤ newEnd then new.get? newEnd.toNat else none) with
      | none => .crash
      | some n =>
        if o.key = n.key then
          bwdGo old new fuel (oldEnd - 1) (newEnd - 1) (acc ++ [.patchOp o.id n.id])
        else .ok (oldEnd, newEnd, acc)

/-- The mount loop of the "only next has remainder" branch. -/
def mntGo (new : List KChild) (newEnd : Int) (anchor : Option Nat) :
    Nat → Nat → List KOp → JSRes (List KOp)
  | 0, _, _ => .fuelOut
  | fuel + 1, j, acc =>
    if (j : Int) ≤ newEnd then
      match new.get? j with
      | none => .crash
      | some n => mntGo new newEnd anchor fuel (j + 1) (acc ++ [.mountOp n.id anchor])
    else .ok acc

/-- The unmount loop of the "only previous has remainder" branch. -/
def unmGo (old : List KChild) (oldEnd : Int) : Nat → Nat → List KOp → JSRes (List KOp)
  | 0, _, _ => .fuelOut
  | fuel + 1, j, acc =>
    if (j : Int) ≤ oldEnd then
      match old.get? j with
      | none => .crash
      | some o => unmGo old oldEnd fuel (j + 1) (acc ++ [.unmountOp o.id])
    else .ok acc

/-- `keyIndex[newChildren[i].key] = i` for `i` in the middle region;
later assignments overwrite earlier ones. -/
def kiSet (key i : Nat) : List (Nat × Nat) → List (Nat × Nat)
  | [] => [(key, i)]
  | (k, v) :: rest => if k = key then (k, i) :: rest else (k, v) :: kiSet key i rest

def kiGet (key : Nat) : List (Nat × Nat) → Option Nat
  | [] => none
  | (k, v) :: rest => if k = key then some v else kiGet key rest

def kiGo (new : List KChild) (newEnd : Int) : Nat → Nat → List (Nat × Nat) →
    JSRes (List (Nat × Nat))
  | 0, _, _ => .fuelOut
  | fuel + 1, i, ki =>
    if (i : Int) ≤ newEnd then
      match new.get? i with
      | none => .crash
      | some n => kiGo new newEnd fuel (i + 1) (kiSet n.key i ki)
    else .ok ki

/-- The middle-region matching loop: for each remaining previous child,
look its key up in the map; patch and record the source position (tracking
whether relative order was violated), or unmount. -/
def midGo (old new : List KChild) (oldEnd : Int) (ki : List (Nat × Nat))
    (count j : Nat) :
    Nat → Nat → List Int → Nat → Nat → Bool → List KOp →
    JSRes (List Int × Bool × List KOp)
  | 0, _, _, _, _, _, _ => .fuelOut
  | fuel + 1, i, souce, patched, pos, moved, acc =>
    if (i : Int) ≤ oldEnd then
      match old.get? i with
      | none => .crash
      | some o =>
        if patched < count then
          match kiGet o.key ki with
          | some k =>
            match new.get? k with
            | none => .crash
            | some n =>
              midGo old new oldEnd ki count j fuel (i + 1)
                (souce.set (k - j) (i : Int)) (patched + 1)
                (if k < pos then pos else k) (if k < pos then true else moved)
                (acc ++ [.patchOp o.id n.id])
          | none =>
            midGo old new oldEnd ki count j fuel (i + 1) souce patched pos moved
              (acc ++ [.unmountOp o.id])
        else
          midGo old new oldEnd ki count j fuel (i + 1) souce patched pos moved
            (acc ++ [.unmountOp o.id])
    else .ok (souce, moved, acc)

/-- The move/mount loop over the middle region, walked backward with the
LIS cursor `s` (`seq[s]` with `s < 0` reads `undefined`, which compares
unequal, forcing a move).  The first argument is the source's `i + 1`. -/
def movGo (new : List KChild) (souce seq : List Int) (j : Nat) :
    Nat → Int → List KOp → JSRes (List KOp)
  | 0, _, acc => .ok acc
  | iN + 1, s, acc =>
    let posIdx := iN + j
    let anchor := match new.get? (posIdx + 1) with
      | some nn => some nn.id
      | none => none
    if souce.getD iN 0 = -1 then
      match new.get? posIdx with
      | none => .crash
      | some n => movGo new souce seq j iN s (acc ++ [.mountOp n.id anchor])
    else if (if 0 ≤ s then seq.get? s.toNat else none) = some (iN : Int) then
      movGo new souce seq j iN (s - 1) acc
    else
      match new.get? posIdx with
      | none => .crash
      | some n => movGo new souce seq j iN s (acc ++ [.moveOp n.id anchor])

/-- `patchKeyedChildren`, assembled from the loops above. -/
def patchKeyedChildren (old new : List KChild) : JSRes (List KOp) :=
  match fwdGo old new (new.length + 1) 0 [] with
  | .crash => .crash
  | .fuelOut => .fuelOut
  | .ok (j, acc1) =>
    match bwdGo old new (old.length + 1) ((old.length : Int) - 1)
        ((new.length : Int) - 1) acc1 with
    | .crash => .crash
    | .fuelOut => .fuelOut
    | .ok (oldEnd, newEnd, acc2) =>
      if (j : Int) ≤ newEnd ∧ oldEnd < (j : Int) then
        let anchorIndex := newEnd + 1
        let anchor := if anchorIndex < (new.length : Int) then
            match new.get? anchorIndex.toNat with
            | some nn => some nn.id
            | none => none
          else none
        mntGo new newEnd anchor (new.length + 1) j acc2
      else if newEnd < (j : Int) ∧ (j : Int) ≤ oldEnd then
        unmGo old oldEnd (old.length + 1) j acc2
      else
        let count := newEnd - (j : Int) + 1
        if count < 0 then .crash
        else
          match kiGo new newEnd (new.length + 1) j [] with
          | .crash => .crash
          | .fuelOut => .fuelOut
          | .ok ki =>
            match midGo old new oldEnd ki count.toNat j (old.length + 1) j
                (List.replicate count.toNat (-1)) 0 0 false acc2 with
            | .crash => .crash
            | .fuelOut => .fuelOut
            | .ok (souce, moved, acc3) =>
              if moved then
                movGo new souce (getSequence souce) j count.toNat
                  ((getSequence souce).length - 1 : Int) acc3
              else .ok acc3

/-- C2 fails on the code: with previous keys `[1]` and next keys `[1, 2]`
(previous a strict prefix of next), the forward loop matches key 1, then
re-evaluates its condition with `oldChildren[1]` undefined and throws a
TypeError reading `.key` — the diff crashes before ever reaching the
mount-remainder branch.  Symmetrically, `[1, 2]` against `[2]` (next a
strict suffix of previous) crashes in the unguarded backward loop, and
even two identical keyed lists crash.  The second conjunct shows the
remainder branch itself is reachable and behaves as specified when the
matching phases stop inside both lists: `[1, 3]` against `[1, 2, 3]`
mounts the middle insertion anchored before key 3's node. -/
theorem patchKeyedChildren_crashes_on_prefix :
    patchKeyedChildren [⟨1, 10⟩] [⟨1, 20⟩, ⟨2, 21⟩] = .crash ∧
    patchKeyedChildren [⟨1, 10⟩, ⟨2, 11⟩] [⟨2, 21⟩] = .crash ∧
    patchKeyedChildren [⟨1, 10⟩] [⟨1, 20⟩] = .crash ∧
    patchKeyedChildren [⟨1, 10⟩, ⟨3, 11⟩] [⟨1, 20⟩, ⟨2, 21⟩, ⟨3, 22⟩]
      = .ok [.patchOp 10 20, .patchOp 11 22, .mountOp 21 (some 22)] := by
  refine ⟨rfl, rfl, rfl, rfl⟩

end MiniVue
